import Mathlib

/-!
# Shared-face graph construction of `OptixTetQuery.cpp`

A shallow embedding of `SharedFacesBuilder` (the constructor loop and `add`) from
`src/tetMeshQueryLib/OptixTetQuery.cpp`, followed by theorems about it.

Modelling conventions:

* vertex indices and tetrahedron ids are C `int`s, modelled as `Int`; the 64-bit face key is
  modelled on `Nat` with explicit reduction modulo `2^64`;
* coordinates live in an arbitrary linearly ordered commutative ring `α` (exact arithmetic), and the
  square root used by `length` is a parameter `sqrt : α → α`;
* `std::vector` is a `List`, `std::map<uint64_t,int>` is an association list searched with
  `List.lookup` (a key is inserted only when it is absent, so the search is faithful);
* an out-of-range `operator[]` and a failing `assert` are explicit faults of type `Fault`.
-/

set_option linter.dupNamespace false

namespace TetQueries

/-! ## Data model -/

/-- Three-component vector (`vec3f`, `vec3d`). -/
structure Vec3 (α : Type) where
  x : α
  y : α
  z : α
deriving DecidableEq, Repr

/-- Three vertex indices (`vec3i`). -/
structure Vec3i where
  x : Int
  y : Int
  z : Int
deriving DecidableEq, Repr

/-- Four vertex indices of one tetrahedron (`vec4i`). -/
structure Vec4i where
  x : Int
  y : Int
  z : Int
  w : Int
deriving DecidableEq, Repr

/-- Per-face adjacency `SharedFacesGeom::FaceInfo`: the tetrahedron in front and the one behind,
`-1` meaning none. -/
structure FaceInfo where
  front : Int
  back : Int
deriving DecidableEq, Repr

/-- The ways in which the construction can go wrong at run time. -/
inductive Fault where
  | vertexOutOfRange
  | faceInfoOutOfRange
  | assertionFailed
deriving DecidableEq, Repr

/-- The builder state: the data members of `struct SharedFacesBuilder`. -/
structure SharedFacesBuilder (α : Type) where
  faceInfos : List FaceInfo
  faceIndices : List Vec3i
  faceVertices : List (Vec3 α)
  knownFaces : List (Nat × Nat)
  maxEdgeLength : α

/-! ## Vector arithmetic -/

section Arithmetic

variable {α : Type} [LinearOrderedCommRing α]

/-- Componentwise difference `a - b`. -/
def Vec3.sub (a b : Vec3 α) : Vec3 α := ⟨a.x - b.x, a.y - b.y, a.z - b.z⟩

/-- Scalar product `dot(a, b)`. -/
def dot (a b : Vec3 α) : α := a.x * b.x + a.y * b.y + a.z * b.z

/-- Vector product `cross(a, b)`. -/
def cross (a b : Vec3 α) : Vec3 α :=
  ⟨a.y * b.z - a.z * b.y, a.z * b.x - a.x * b.z, a.x * b.y - a.y * b.x⟩

/-- Euclidean norm `length(v) = sqrt(dot(v, v))`, over the given square root. -/
def length (sqrt : α → α) (v : Vec3 α) : α := sqrt (dot v v)

/-- The signed volume `dot(D - A, cross(B - A, C - A))` of line 72. -/
def signedVolume (A B C D : Vec3 α) : α := dot (D.sub A) (cross (B.sub A) (C.sub A))

end Arithmetic

/-! ## `SharedFacesBuilder::add` -/

/-- Lines 95-98: three compare-and-swap steps on `(x,z)`, `(y,z)`, `(x,y)`; `front` is negated at
every swap. -/
def canonicalize (face : Vec3i) : Vec3i × Bool :=
  let front := true
  let (face, front) :=
    if face.x > face.z then (({ face with x := face.z, z := face.x } : Vec3i), !front)
    else (face, front)
  let (face, front) :=
    if face.y > face.z then (({ face with y := face.z, z := face.y } : Vec3i), !front)
    else (face, front)
  let (face, front) :=
    if face.x > face.y then (({ face with x := face.y, y := face.x } : Vec3i), !front)
    else (face, front)
  (face, front)

/-- Conversion of an `int` to `uint64_t`. -/
def toUInt64 (i : Int) : Nat := (i % 2 ^ 64).toNat

/-- Line 102: `((((uint64_t)face.z << 20) | face.y) << 20) | face.x` in 64-bit arithmetic. -/
def faceKey (face : Vec3i) : Nat :=
  (((((toUInt64 face.z <<< 20) % 2 ^ 64) ||| toUInt64 face.y) <<< 20) % 2 ^ 64) ||| toUInt64 face.x

/-- Lines 114-117: `faceInfos[faceID].front = tetID` or `faceInfos[faceID].back = tetID`. -/
def FaceInfo.assign (info : FaceInfo) (front : Bool) (tetID : Int) : FaceInfo :=
  if front then { info with front := tetID } else { info with back := tetID }

/-- The slot of a `FaceInfo` selected by the orientation flag. -/
def FaceInfo.side (info : FaceInfo) (front : Bool) : Int :=
  if front then info.front else info.back

/-- The write `faceInfos[faceID].front/back = tetID`, faulting when `faceID` is out of range. -/
def writeInfo (faceInfos : List FaceInfo) (faceID : Nat) (front : Bool) (tetID : Int) :
    Except Fault (List FaceInfo) :=
  match faceInfos[faceID]? with
  | some info => .ok (faceInfos.set faceID (info.assign front tetID))
  | none => .error Fault.faceInfoOutOfRange

/-- The function `SharedFacesBuilder::add` (lines 93-118). -/
def SharedFacesBuilder.add {α : Type} (s : SharedFacesBuilder α) (tetID : Int) (face : Vec3i) :
    Except Fault (SharedFacesBuilder α) :=
  let (face, front) := canonicalize face
  if face.x < face.y ∧ face.x < face.z then
    let key := faceKey face
    match s.knownFaces.lookup key with
    | none =>
      let faceID := s.faceIndices.length
      match writeInfo (s.faceInfos ++ [⟨-1, -1⟩]) faceID front tetID with
      | .ok infos =>
        .ok { s with
              faceIndices := s.faceIndices ++ [face]
              faceInfos := infos
              knownFaces := (key, faceID) :: s.knownFaces }
      | .error e => .error e
    | some faceID =>
      match writeInfo s.faceInfos faceID front tetID with
      | .ok infos => .ok { s with faceInfos := infos }
      | .error e => .error e
  else .error Fault.assertionFailed

/-! ## The constructor -/

section Constructor

variable {α : Type} [LinearOrderedCommRing α]

/-- The read `faceVertices[i]` for an `int` index, faulting when out of range. -/
def vertexAt (faceVertices : List (Vec3 α)) (i : Int) : Except Fault (Vec3 α) :=
  if 0 ≤ i then
    match faceVertices[i.toNat]? with
    | some v => .ok v
    | none => .error Fault.vertexOutOfRange
  else .error Fault.vertexOutOfRange

/-- Lines 53-58: some two of the four indices are equal. -/
def Vec4i.hasRepeat (index : Vec4i) : Prop :=
  index.x = index.y ∨ index.x = index.z ∨ index.x = index.w ∨
  index.y = index.z ∨ index.y = index.w ∨ index.z = index.w

instance (index : Vec4i) : Decidable index.hasRepeat := by
  unfold Vec4i.hasRepeat; infer_instance

/-- Lines 65-70: the six successive `std::max` updates of `maxEdgeLength`. -/
def updateMaxEdge (sqrt : α → α) (m : α) (A B C D : Vec3 α) : α :=
  let m := max m (length sqrt (B.sub A))
  let m := max m (length sqrt (C.sub A))
  let m := max m (length sqrt (D.sub A))
  let m := max m (length sqrt (C.sub B))
  let m := max m (length sqrt (D.sub B))
  let m := max m (length sqrt (D.sub C))
  m

/-- Lines 79-81: `std::swap(index.x, index.y)` when the volume is negative. -/
def orientIndex (volume : α) (index : Vec4i) : Vec4i :=
  if volume < 0 then { index with x := index.y, y := index.x } else index

/-- Lines 83-86: the four faces handed to `add`, in call order. -/
def tetFaces (index : Vec4i) : List Vec3i :=
  [⟨index.x, index.y, index.z⟩, ⟨index.y, index.w, index.z⟩,
   ⟨index.x, index.w, index.y⟩, ⟨index.z, index.w, index.x⟩]

/-- Successive calls `add(tetID, face)` for the listed faces. -/
def addFaces (s : SharedFacesBuilder α) (tetID : Int) : List Vec3i →
    Except Fault (SharedFacesBuilder α)
  | [] => .ok s
  | face :: rest =>
    match s.add tetID face with
    | .ok s1 => addFaces s1 tetID rest
    | .error e => .error e

/-- One iteration of the loop of lines 51-87, for the tetrahedron at position `tetID`. -/
def loopBody (sqrt : α → α) (s : SharedFacesBuilder α) (tetID : Nat) (index : Vec4i) :
    Except Fault (SharedFacesBuilder α) :=
  if index.hasRepeat then .ok s
  else
    match vertexAt s.faceVertices index.x, vertexAt s.faceVertices index.y,
          vertexAt s.faceVertices index.z, vertexAt s.faceVertices index.w with
    | .ok A, .ok B, .ok C, .ok D =>
      let s := { s with maxEdgeLength := updateMaxEdge sqrt s.maxEdgeLength A B C D }
      let volume := signedVolume A B C D
      if volume = 0 then .ok s
      else addFaces s (tetID : Int) (tetFaces (orientIndex volume index))
    | _, _, _, _ => .error Fault.vertexOutOfRange

/-- The state on entry to the loop: `faceVertices` filled (lines 48-49), everything else empty and
`maxEdgeLength = 0.f`. -/
def initial (vertices : List (Vec3 α)) : SharedFacesBuilder α :=
  { faceInfos := [], faceIndices := [], faceVertices := vertices, knownFaces := [],
    maxEdgeLength := 0 }

/-- The builder state after the first `n` iterations of the loop over `indices`. -/
def loopState (sqrt : α → α) (vertices : List (Vec3 α)) (indices : List Vec4i) :
    Nat → Except Fault (SharedFacesBuilder α)
  | 0 => .ok (initial vertices)
  | n + 1 =>
    match loopState sqrt vertices indices n with
    | .ok s =>
      match indices[n]? with
      | some index => loopBody sqrt s n index
      | none => .ok s
    | .error e => .error e

/-- The constructor `SharedFacesBuilder::SharedFacesBuilder` (lines 44-90): the loop run over all
`numIndices` tetrahedra. -/
def SharedFacesBuilder.SharedFacesBuilder (sqrt : α → α) (vertices : List (Vec3 α))
    (indices : List Vec4i) : Except Fault (SharedFacesBuilder α) :=
  loopState sqrt vertices indices indices.length

end Constructor

/-! ## Vocabulary of the statements -/

/-- The face whose corners are `v 0`, `v 1`, `v 2`, in this order. -/
def faceOf (v : Fin 3 → Int) : Vec3i := ⟨v 0, v 1, v 2⟩

/-! ## Call histories

The sequence of `add` calls made so far is not part of the program state; it is the vocabulary in
which the face graph is described. -/

/-- One call `add(tetID, face)`: the pair of its two arguments. -/
abbrev Call := Int × Vec3i

/-- The canonical (sorted) face computed by the call. -/
def Call.face (c : Call) : Vec3i := (canonicalize c.2).1

/-- The orientation flag `front` computed by the call. -/
def Call.front (c : Call) : Bool := (canonicalize c.2).2

/-- The 64-bit key computed by the call. -/
def Call.key (c : Call) : Nat := faceKey c.face

/-- The call passes the assertion of line 99. -/
def Call.asserted (c : Call) : Prop := c.face.x < c.face.y ∧ c.face.x < c.face.z

/-- The id written last into side `b` of the slot with key `K` by the listed calls, `v` when no
listed call writes there. -/
def lastWriter (K : Nat) (b : Bool) (calls : List Call) (v : Int) : Int :=
  calls.foldl (fun v c => if c.key = K ∧ c.front = b then c.1 else v) v

/-- The canonical faces of the calls whose key had not occurred before, in call order. -/
def sightingsByKey (calls : List Call) : List Vec3i :=
  calls.foldl
    (fun acc c => if acc.any (fun g => faceKey g == c.key) then acc else acc ++ [c.face]) []

/-- The face part of the state `s` is the one produced by the calls `H`: the lookup table and the
face list agree, a key is known exactly when some call had it, the faces are the first sightings
and every slot side holds its last writer. -/
structure Tracks {α : Type} (s : SharedFacesBuilder α) (H : List Call) : Prop where
  len_eq : s.faceInfos.length = s.faceIndices.length
  sound : ∀ (K faceID : Nat), s.knownFaces.lookup K = some faceID →
    ∃ f, s.faceIndices[faceID]? = some f ∧ faceKey f = K
  complete : ∀ (faceID : Nat) (f : Vec3i), s.faceIndices[faceID]? = some f →
    s.knownFaces.lookup (faceKey f) = some faceID
  known : ∀ K, s.knownFaces.lookup K = none ↔ ∀ c ∈ H, c.key ≠ K
  side : ∀ (faceID : Nat) (f : Vec3i) (info : FaceInfo), s.faceIndices[faceID]? = some f →
    s.faceInfos[faceID]? = some info → ∀ b, info.side b = lastWriter (faceKey f) b H (-1)
  faces : s.faceIndices = sightingsByKey H

section History

variable {α : Type} [LinearOrderedCommRing α]

/-- The faces that the loop iteration for `index` hands to `add`, in call order: none when the
iteration is skipped (repeated index, zero volume) or stops at a vertex read. -/
def emittedFaces (vertices : List (Vec3 α)) (index : Vec4i) : List Vec3i :=
  if index.hasRepeat then []
  else
    match vertexAt vertices index.x, vertexAt vertices index.y,
          vertexAt vertices index.z, vertexAt vertices index.w with
    | .ok A, .ok B, .ok C, .ok D =>
      if signedVolume A B C D = 0 then []
      else tetFaces (orientIndex (signedVolume A B C D) index)
    | _, _, _, _ => []

/-- The `add` calls of the loop iteration `tetID`. -/
def tetCalls (vertices : List (Vec3 α)) (tetID : Nat) (index : Vec4i) : List Call :=
  (emittedFaces vertices index).map (fun face => ((tetID : Int), face))

/-- All `add` calls of the first `n` loop iterations, in call order. -/
def allCalls (vertices : List (Vec3 α)) (indices : List Vec4i) : Nat → List Call
  | 0 => []
  | n + 1 =>
    allCalls vertices indices n ++
      (match indices[n]? with
       | some index => tetCalls vertices n index
       | none => [])

/-- The value of `maxEdgeLength` after the loop iteration for `index`, entered with value `m`:
unchanged when an index is repeated, otherwise enlarged by the six edges (whatever the volume). -/
def edgeBound (sqrt : α → α) (vertices : List (Vec3 α)) (m : α) (index : Vec4i) : α :=
  if index.hasRepeat then m
  else
    match vertexAt vertices index.x, vertexAt vertices index.y,
          vertexAt vertices index.z, vertexAt vertices index.w with
    | .ok A, .ok B, .ok C, .ok D => updateMaxEdge sqrt m A B C D
    | _, _, _, _ => m

/-- The value of `maxEdgeLength` after the first `n` loop iterations. -/
def edgeBoundAfter (sqrt : α → α) (vertices : List (Vec3 α)) (indices : List Vec4i) : Nat → α
  | 0 => 0
  | n + 1 =>
    match indices[n]? with
    | some index => edgeBound sqrt vertices (edgeBoundAfter sqrt vertices indices n) index
    | none => edgeBoundAfter sqrt vertices indices n

/-- All four indices of the tetrahedron lie in `[0, numVertices)`. -/
def Vec4i.inBounds (index : Vec4i) (numVertices : Nat) : Prop :=
  (0 ≤ index.x ∧ index.x < numVertices) ∧ (0 ≤ index.y ∧ index.y < numVertices) ∧
  (0 ≤ index.z ∧ index.z < numVertices) ∧ (0 ≤ index.w ∧ index.w < numVertices)

instance (index : Vec4i) (numVertices : Nat) : Decidable (index.inBounds numVertices) := by
  unfold Vec4i.inBounds; infer_instance

/-- Every index of every input tetrahedron lies in `[0, numVertices)`. -/
def InBounds (vertices : List (Vec3 α)) (indices : List Vec4i) : Prop :=
  ∀ index ∈ indices, index.inBounds vertices.length

instance (vertices : List (Vec3 α)) (indices : List Vec4i) :
    Decidable (InBounds vertices indices) := by
  unfold InBounds; infer_instance

end History

/-- The loop iteration for `index` makes an `add` call that computes key `K` and orientation flag
`b`, that is, it writes into side `b` of the slot of `K`. -/
def emitsTo {α : Type} [LinearOrderedCommRing α] (vertices : List (Vec3 α)) (index : Vec4i)
    (K : Nat) (b : Bool) : Prop :=
  ∃ face ∈ emittedFaces vertices index, faceKey (canonicalize face).1 = K ∧ (canonicalize face).2 = b

/-- All three indices of the face lie in `[0, 2^20)`, the bit budget of the key. -/
def Vec3i.inBudget (f : Vec3i) : Prop :=
  (0 ≤ f.x ∧ f.x < 2 ^ 20) ∧ (0 ≤ f.y ∧ f.y < 2 ^ 20) ∧ (0 ≤ f.z ∧ f.z < 2 ^ 20)

instance (f : Vec3i) : Decidable f.inBudget := by
  unfold Vec3i.inBudget; infer_instance

/-- All four indices of the tetrahedron lie in `[0, 2^20)`. -/
def Vec4i.inBudget (index : Vec4i) : Prop :=
  (0 ≤ index.x ∧ index.x < 2 ^ 20) ∧ (0 ≤ index.y ∧ index.y < 2 ^ 20) ∧
  (0 ≤ index.z ∧ index.z < 2 ^ 20) ∧ (0 ≤ index.w ∧ index.w < 2 ^ 20)

instance (index : Vec4i) : Decidable index.inBudget := by
  unfold Vec4i.inBudget; infer_instance

section Scenario

variable {α : Type} [LinearOrderedCommRing α]

/-- The four vertices `(0,0,0)`, `(1,0,0)`, `(0,1,0)`, `(0,0,1)` of the concrete scenario. -/
def unitTetVertices : List (Vec3 α) := [⟨0, 0, 0⟩, ⟨1, 0, 0⟩, ⟨0, 1, 0⟩, ⟨0, 0, 1⟩]

/-- The single tetrahedron `(0,1,2,3)` of the concrete scenario. -/
def unitTetIndices : List Vec4i := [⟨0, 1, 2, 3⟩]

/-- The face list and the per-face adjacency of a constructed builder. -/
def faceGraph (r : Except Fault (SharedFacesBuilder α)) :
    Except Fault (List Vec3i × List FaceInfo) :=
  match r with
  | .ok s => .ok (s.faceIndices, s.faceInfos)
  | .error e => .error e

end Scenario

section Scenario2

variable {α : Type} [LinearOrderedCommRing α]

/-- The unit vertices and the vertex `(1,1,1)`. -/
def pairVertices : List (Vec3 α) :=
  [⟨0, 0, 0⟩, ⟨1, 0, 0⟩, ⟨0, 1, 0⟩, ⟨0, 0, 1⟩, ⟨1, 1, 1⟩]

/-- Two tetrahedra that share the triangle `(1,2,3)`. -/
def pairIndices : List Vec4i := [⟨0, 1, 2, 3⟩, ⟨1, 2, 3, 4⟩]

end Scenario2

section Geometry

variable {α : Type} [LinearOrderedCommRing α]

/-- The position of vertex `i` (the origin for an index outside the array). -/
def vertexOf (vertices : List (Vec3 α)) (i : Int) : Vec3 α :=
  if 0 ≤ i then vertices.getD i.toNat ⟨0, 0, 0⟩ else ⟨0, 0, 0⟩

/-- The signed volume of the tetrahedron `index`, from its four vertex positions. -/
def tetVolume (vertices : List (Vec3 α)) (index : Vec4i) : α :=
  signedVolume (vertexOf vertices index.x) (vertexOf vertices index.y)
    (vertexOf vertices index.z) (vertexOf vertices index.w)

/-- A non-degenerate tetrahedron: four pairwise-distinct indices and non-zero signed volume. -/
def NonDegenerate (vertices : List (Vec3 α)) (index : Vec4i) : Prop :=
  ¬ index.hasRepeat ∧ tetVolume vertices index ≠ 0

/-- The Euclidean lengths of the six edges of the tetrahedron `index`. -/
def edgeLengths (sqrt : α → α) (vertices : List (Vec3 α)) (index : Vec4i) : List α :=
  [length sqrt ((vertexOf vertices index.y).sub (vertexOf vertices index.x)),
   length sqrt ((vertexOf vertices index.z).sub (vertexOf vertices index.x)),
   length sqrt ((vertexOf vertices index.w).sub (vertexOf vertices index.x)),
   length sqrt ((vertexOf vertices index.z).sub (vertexOf vertices index.y)),
   length sqrt ((vertexOf vertices index.w).sub (vertexOf vertices index.y)),
   length sqrt ((vertexOf vertices index.w).sub (vertexOf vertices index.z))]

/-- Four collinear vertices: a tetrahedron on them has zero volume. -/
def flatVertices : List (Vec3 α) := [⟨0, 0, 0⟩, ⟨1, 0, 0⟩, ⟨2, 0, 0⟩, ⟨3, 0, 0⟩]

end Geometry

/-- Two builder states with the same face graph, lookup table and vertex array; they may differ in
`maxEdgeLength`. -/
def SameGraph {α : Type} (s s' : SharedFacesBuilder α) : Prop :=
  s.faceInfos = s'.faceInfos ∧ s.faceIndices = s'.faceIndices ∧
  s.knownFaces = s'.knownFaces ∧ s.faceVertices = s'.faceVertices

/-- Two runs that end in the same fault, or in states with the same face graph. -/
def SameOutcome {α : Type} (r r' : Except Fault (SharedFacesBuilder α)) : Prop :=
  match r, r' with
  | .ok s, .ok s' => SameGraph s s'
  | .error e, .error e' => e = e'
  | _, _ => False

/-- The loop iteration for `index` hands to `add` a face whose canonical form is `g` and whose
orientation flag is `b`: the tetrahedron is assigned to side `b` of the canonical face `g`. -/
def emitsFace {α : Type} [LinearOrderedCommRing α] (vertices : List (Vec3 α)) (index : Vec4i)
    (g : Vec3i) (b : Bool) : Prop :=
  ∃ face ∈ emittedFaces vertices index, canonicalize face = (g, b)

/-- The index `i` is a corner of the face. -/
def Vec3i.has (f : Vec3i) (i : Int) : Prop := i = f.x ∨ i = f.y ∨ i = f.z

instance (f : Vec3i) (i : Int) : Decidable (f.has i) := by
  unfold Vec3i.has; infer_instance

/-- The three indices of the face are pairwise distinct. -/
def Vec3i.distinct (f : Vec3i) : Prop := f.x ≠ f.y ∧ f.x ≠ f.z ∧ f.y ≠ f.z

instance (f : Vec3i) : Decidable f.distinct := by
  unfold Vec3i.distinct; infer_instance

/-- The faces seen for the first time, in order of first sighting. -/
def firstSightings (faces : List Vec3i) : List Vec3i :=
  faces.foldl (fun acc f => if f ∈ acc then acc else acc ++ [f]) []

/-- The index `i` is a corner of the tetrahedron. -/
def Vec4i.has (index : Vec4i) (i : Int) : Prop :=
  i = index.x ∨ i = index.y ∨ i = index.z ∨ i = index.w

instance (index : Vec4i) (i : Int) : Decidable (index.has i) := by
  unfold Vec4i.has; infer_instance

/-- The triangle with corners `f.x`, `f.y`, `f.z` belongs to the tetrahedron: its three corners
are corners of the tetrahedron. -/
def Vec4i.hasTriangle (index : Vec4i) (f : Vec3i) : Prop :=
  index.has f.x ∧ index.has f.y ∧ index.has f.z

instance (index : Vec4i) (f : Vec3i) : Decidable (index.hasTriangle f) := by
  unfold Vec4i.hasTriangle; infer_instance

/-- The fourth vertex of a tetrahedron with respect to one of its triangles: the corner of the
tetrahedron that is not a corner of the triangle. -/
def fourthVertex (index : Vec4i) (f : Vec3i) : Int :=
  if ¬ f.has index.x then index.x
  else if ¬ f.has index.y then index.y
  else if ¬ f.has index.z then index.z
  else index.w

/-- The side of the plane of triangle `f` on which vertex `p` lies: positive, negative or zero
according to the sign of the orientation determinant. -/
def planeSide {α : Type} [LinearOrderedCommRing α] (vertices : List (Vec3 α)) (f : Vec3i)
    (p : Int) : α :=
  signedVolume (vertexOf vertices f.x) (vertexOf vertices f.y) (vertexOf vertices f.z)
    (vertexOf vertices p)

/-! # Theorems -/

/-! ## Canonicalisation -/

theorem perm3_cases : ∀ σ : Equiv.Perm (Fin 3),
    (Equiv.Perm.sign σ = 1 ∧ ((σ 0 = 0 ∧ σ 1 = 1 ∧ σ 2 = 2) ∨ (σ 0 = 1 ∧ σ 1 = 2 ∧ σ 2 = 0) ∨
      (σ 0 = 2 ∧ σ 1 = 0 ∧ σ 2 = 1))) ∨
    (Equiv.Perm.sign σ = -1 ∧ ((σ 0 = 0 ∧ σ 1 = 2 ∧ σ 2 = 1) ∨ (σ 0 = 2 ∧ σ 1 = 1 ∧ σ 2 = 0) ∨
      (σ 0 = 1 ∧ σ 1 = 0 ∧ σ 2 = 2))) := by
  decide

theorem canonicalize_sorted_perm (a b c : Int) (hab : a < b) (hbc : b < c) :
    canonicalize ⟨a, b, c⟩ = (⟨a, b, c⟩, true) ∧ canonicalize ⟨b, c, a⟩ = (⟨a, b, c⟩, true) ∧
    canonicalize ⟨c, a, b⟩ = (⟨a, b, c⟩, true) ∧ canonicalize ⟨a, c, b⟩ = (⟨a, b, c⟩, false) ∧
    canonicalize ⟨c, b, a⟩ = (⟨a, b, c⟩, false) ∧ canonicalize ⟨b, a, c⟩ = (⟨a, b, c⟩, false) := by
  have hac : a < c := lt_trans hab hbc
  refine ⟨?_, ?_, ?_, ?_, ?_, ?_⟩ <;>
    simp [canonicalize, hab, hbc, hac, not_lt.mpr hab.le, not_lt.mpr hbc.le, not_lt.mpr hac.le]

/-- C1. For three pairwise-distinct indices `v 0`, `v 1`, `v 2` and every permutation `σ` of the
three positions, the reordered face has the same canonical face and hence the same 64-bit key as
the original one, its orientation flag `front` equals the original flag exactly when `σ` is even,
and, when `v` is ascending, `front` is true exactly for the even permutations. (The range
`[0, 2^20)` of the indices is not needed.) -/
theorem canonicalize_perm (v : Fin 3 → Int) (h01 : v 0 ≠ v 1) (h02 : v 0 ≠ v 2)
    (h12 : v 1 ≠ v 2) (σ : Equiv.Perm (Fin 3)) :
    (canonicalize (faceOf (v ∘ σ))).1 = (canonicalize (faceOf v)).1 ∧
    faceKey (canonicalize (faceOf (v ∘ σ))).1 = faceKey (canonicalize (faceOf v)).1 ∧
    ((canonicalize (faceOf (v ∘ σ))).2 = (canonicalize (faceOf v)).2 ↔
      Equiv.Perm.sign σ = 1) ∧
    (v 0 < v 1 → v 1 < v 2 →
      ((canonicalize (faceOf (v ∘ σ))).2 = true ↔ Equiv.Perm.sign σ = 1)) := by
  have key : (canonicalize (faceOf (v ∘ σ))).1 = (canonicalize (faceOf v)).1 ∧
      ((canonicalize (faceOf (v ∘ σ))).2 = (canonicalize (faceOf v)).2 ↔
        Equiv.Perm.sign σ = 1) := by
    have hneg : ((-1 : ℤˣ) = 1) = False := by decide
    have hcases : ∃ p q r : Int, p < q ∧ q < r ∧
        ((v 0 = p ∧ v 1 = q ∧ v 2 = r) ∨ (v 0 = q ∧ v 1 = r ∧ v 2 = p) ∨
         (v 0 = r ∧ v 1 = p ∧ v 2 = q) ∨ (v 0 = p ∧ v 1 = r ∧ v 2 = q) ∨
         (v 0 = r ∧ v 1 = q ∧ v 2 = p) ∨ (v 0 = q ∧ v 1 = p ∧ v 2 = r)) := by
      rcases lt_or_gt_of_ne h01 with h1 | h1 <;> rcases lt_or_gt_of_ne h02 with h2 | h2 <;>
        rcases lt_or_gt_of_ne h12 with h3 | h3
      · exact ⟨v 0, v 1, v 2, h1, h3, Or.inl ⟨rfl, rfl, rfl⟩⟩
      · exact ⟨v 0, v 2, v 1, h2, h3, Or.inr (Or.inr (Or.inr (Or.inl ⟨rfl, rfl, rfl⟩)))⟩
      · omega
      · exact ⟨v 2, v 0, v 1, h2, h1, Or.inr (Or.inl ⟨rfl, rfl, rfl⟩)⟩
      · exact ⟨v 1, v 0, v 2, h1, h2,
          Or.inr (Or.inr (Or.inr (Or.inr (Or.inr ⟨rfl, rfl, rfl⟩))))⟩
      · omega
      · exact ⟨v 1, v 2, v 0, h3, h2, Or.inr (Or.inr (Or.inl ⟨rfl, rfl, rfl⟩))⟩
      · exact ⟨v 2, v 1, v 0, h3, h1,
          Or.inr (Or.inr (Or.inr (Or.inr (Or.inl ⟨rfl, rfl, rfl⟩))))⟩
    obtain ⟨p, q, r, hpq, hqr, hv⟩ := hcases
    obtain ⟨e1, e2, e3, e4, e5, e6⟩ := canonicalize_sorted_perm p q r hpq hqr
    rcases perm3_cases σ with ⟨hs, h | h | h⟩ | ⟨hs, h | h | h⟩ <;>
      obtain ⟨h0, h1, h2⟩ := h <;>
      rcases hv with hv | hv | hv | hv | hv | hv <;>
      obtain ⟨w0, w1, w2⟩ := hv <;>
      simp [faceOf, Function.comp, h0, h1, h2, hs, hneg, w0, w1, w2, e1, e2, e3, e4, e5, e6]
  refine ⟨key.1, by rw [key.1], key.2, fun hlt1 hlt2 => ?_⟩
  have hs : (canonicalize (faceOf v)).2 = true := by
    simp [faceOf, (canonicalize_sorted_perm _ _ _ hlt1 hlt2).1]
  rw [← key.2, hs]

/-- C1 at the face `(5, 2, 9)` with its first two corners exchanged. -/
theorem canonicalize_perm_witness :
    (canonicalize (faceOf (![5, 2, 9] ∘ Equiv.swap (0 : Fin 3) 1))).1 =
      (canonicalize (faceOf ![5, 2, 9])).1 ∧
    faceKey (canonicalize (faceOf (![5, 2, 9] ∘ Equiv.swap (0 : Fin 3) 1))).1 =
      faceKey (canonicalize (faceOf ![5, 2, 9])).1 ∧
    ((canonicalize (faceOf (![5, 2, 9] ∘ Equiv.swap (0 : Fin 3) 1))).2 =
      (canonicalize (faceOf ![5, 2, 9])).2 ↔ Equiv.Perm.sign (Equiv.swap (0 : Fin 3) 1) = 1) ∧
    ((![5, 2, 9] : Fin 3 → Int) 0 < (![5, 2, 9] : Fin 3 → Int) 1 →
      (![5, 2, 9] : Fin 3 → Int) 1 < (![5, 2, 9] : Fin 3 → Int) 2 →
      ((canonicalize (faceOf (![5, 2, 9] ∘ Equiv.swap (0 : Fin 3) 1))).2 = true ↔
        Equiv.Perm.sign (Equiv.swap (0 : Fin 3) 1) = 1)) :=
  canonicalize_perm ![5, 2, 9] (by decide) (by decide) (by decide) (Equiv.swap 0 1)
/-! ## Effect of one `add` call -/

theorem lastWriter_append (K : Nat) (b : Bool) (H : List Call) (c : Call) (v : Int) :
    lastWriter K b (H ++ [c]) v = if c.key = K ∧ c.front = b then c.1 else lastWriter K b H v := by
  simp [lastWriter, List.foldl_append]

theorem sightingsByKey_append (H : List Call) (c : Call) :
    sightingsByKey (H ++ [c]) =
      if (sightingsByKey H).any (fun g => faceKey g == c.key) then sightingsByKey H
      else sightingsByKey H ++ [c.face] := by
  simp [sightingsByKey, List.foldl_append]

theorem faceInfo_side_assign (info : FaceInfo) (b b' : Bool) (t : Int) :
    (info.assign b t).side b' = if b = b' then t else info.side b' := by
  cases b <;> cases b' <;> simp [FaceInfo.assign, FaceInfo.side]

theorem writeInfo_of_getElem? {infos : List FaceInfo} {id : Nat} {info : FaceInfo}
    (h : infos[id]? = some info) (b : Bool) (t : Int) :
    writeInfo infos id b t = .ok (infos.set id (info.assign b t)) := by
  simp [writeInfo, h]

/-- The call `add(tetID, face)` on a state whose table already knows the key. -/
theorem add_of_known {α : Type} (s : SharedFacesBuilder α) (tetID : Int) (face : Vec3i)
    (hassert : Call.asserted (tetID, face)) {id : Nat} {info : FaceInfo}
    (hk : s.knownFaces.lookup (Call.key (tetID, face)) = some id)
    (hi : s.faceInfos[id]? = some info) :
    s.add tetID face =
      .ok { s with faceInfos := s.faceInfos.set id (info.assign (Call.front (tetID, face)) tetID) } := by
  unfold Call.asserted Call.face at hassert
  unfold Call.key Call.face at hk
  simp only [Call.front]
  simp only [SharedFacesBuilder.add]
  rw [if_pos hassert]
  simp only [hk, writeInfo_of_getElem? hi]

/-- The call `add(tetID, face)` on a state whose table does not know the key. -/
theorem add_of_unknown {α : Type} (s : SharedFacesBuilder α) (tetID : Int) (face : Vec3i)
    (hassert : Call.asserted (tetID, face))
    (hk : s.knownFaces.lookup (Call.key (tetID, face)) = none)
    (hlen : s.faceInfos.length = s.faceIndices.length) :
    s.add tetID face =
      .ok { s with
            faceIndices := s.faceIndices ++ [Call.face (tetID, face)]
            faceInfos := s.faceInfos ++
              [(⟨-1, -1⟩ : FaceInfo).assign (Call.front (tetID, face)) tetID]
            knownFaces := (Call.key (tetID, face), s.faceIndices.length) :: s.knownFaces } := by
  unfold Call.asserted Call.face at hassert
  unfold Call.key Call.face at hk
  simp only [Call.front, Call.key, Call.face]
  simp only [SharedFacesBuilder.add]
  rw [if_pos hassert]
  have h1 : (s.faceInfos ++ [(⟨-1, -1⟩ : FaceInfo)])[s.faceIndices.length]? = some ⟨-1, -1⟩ := by
    rw [← hlen]; exact List.getElem?_concat_length _ _
  have h2 : (s.faceInfos ++ [(⟨-1, -1⟩ : FaceInfo)]).set s.faceIndices.length
      ((⟨-1, -1⟩ : FaceInfo).assign (canonicalize face).2 tetID) =
      s.faceInfos ++ [(⟨-1, -1⟩ : FaceInfo).assign (canonicalize face).2 tetID] := by
    rw [← hlen]; simp [List.set_append]
  simp only [hk, writeInfo_of_getElem? h1, h2]

theorem lastWriter_of_no_key (K : Nat) (b : Bool) (H : List Call) (v : Int)
    (h : ∀ c ∈ H, c.key ≠ K) : lastWriter K b H v = v := by
  induction H using List.reverseRecOn with
  | nil => rfl
  | append_singleton H c ih =>
    rw [lastWriter_append, ih (fun c' hc' => h c' (List.mem_append_left _ hc'))]
    have : c.key ≠ K := h c (by simp)
    simp [this]

theorem lastWriter_of_no_key_side (K : Nat) (b : Bool) (H : List Call) (v : Int)
    (h : ∀ c ∈ H, ¬ (c.key = K ∧ c.front = b)) : lastWriter K b H v = v := by
  induction H using List.reverseRecOn with
  | nil => rfl
  | append_singleton H c ih =>
    rw [lastWriter_append, ih (fun c' hc' => h c' (List.mem_append_left _ hc'))]
    have : ¬ (c.key = K ∧ c.front = b) := h c (by simp)
    simp [this]

theorem lookup_cons_eq (K K' v : Nat) (l : List (Nat × Nat)) :
    List.lookup K ((K', v) :: l) = if K = K' then some v else List.lookup K l := by
  rw [List.lookup_cons]
  by_cases h : K = K'
  · simp [h]
  · have : (K == K') = false := by simpa using h
    simp [this, h]

theorem getElem?_append_singleton_some {β : Type} {l : List β} {a b : β} {i : Nat}
    (h : (l ++ [a])[i]? = some b) : (i < l.length ∧ l[i]? = some b) ∨ (i = l.length ∧ b = a) := by
  rcases Nat.lt_trichotomy i l.length with hlt | heq | hgt
  · left; rw [List.getElem?_append_left hlt] at h; exact ⟨hlt, h⟩
  · right; subst heq; rw [List.getElem?_concat_length] at h; exact ⟨rfl, (Option.some.inj h).symm⟩
  · rw [List.getElem?_eq_none (by simp; omega)] at h; cases h

theorem lt_length_of_getElem? {β : Type} {l : List β} {b : β} {i : Nat} (h : l[i]? = some b) :
    i < l.length := by
  obtain ⟨h', _⟩ := List.getElem?_eq_some.mp h
  exact h'

/-- A passing `add` call succeeds and extends the tracked history by that call; it touches neither
`faceVertices` nor `maxEdgeLength`. -/
theorem add_tracks {α : Type} (s : SharedFacesBuilder α) (H : List Call) (h : Tracks s H)
    (c : Call) (hassert : c.asserted) :
    ∃ s', s.add c.1 c.2 = .ok s' ∧ Tracks s' (H ++ [c]) ∧
      s'.faceVertices = s.faceVertices ∧ s'.maxEdgeLength = s.maxEdgeLength := by
  obtain ⟨t, face⟩ := c
  cases hk : s.knownFaces.lookup (Call.key (t, face)) with
  | none =>
    refine ⟨_, add_of_unknown s t face hassert hk h.len_eq, ?_, rfl, rfl⟩
    have hne : ∀ (faceID : Nat) (f : Vec3i), s.faceIndices[faceID]? = some f →
        faceKey f ≠ Call.key (t, face) := by
      intro faceID f hf heq
      have := h.complete faceID f hf
      rw [heq, hk] at this; cases this
    constructor
    · simp [h.len_eq]
    · intro K faceID hl
      simp only [lookup_cons_eq] at hl
      split_ifs at hl with hK
      · cases hl; subst hK
        exact ⟨_, List.getElem?_concat_length _ _, rfl⟩
      · obtain ⟨f, hf, hfk⟩ := h.sound K faceID hl
        exact ⟨f, by rw [List.getElem?_append_left (lt_length_of_getElem? hf)]; exact hf, hfk⟩
    · intro faceID f hf
      simp only [lookup_cons_eq]
      rcases getElem?_append_singleton_some hf with ⟨_, hf'⟩ | ⟨hid, hfe⟩
      · rw [if_neg (hne faceID f hf')]; exact h.complete faceID f hf'
      · subst hfe; subst hid; simp [Call.key]
    · intro K
      simp only [lookup_cons_eq]
      constructor
      · intro hl c hc
        split_ifs at hl with hK
        rcases List.mem_append.mp hc with hc | hc
        · exact (h.known K).mp hl c hc
        · simp at hc; subst hc; exact fun e => hK e.symm
      · intro hall
        have : K ≠ Call.key (t, face) := fun e => hall (t, face) (by simp) e.symm
        rw [if_neg this]
        exact (h.known K).mpr (fun c hc => hall c (List.mem_append_left _ hc))
    · intro faceID f info hf hi b
      rw [lastWriter_append]
      rcases getElem?_append_singleton_some hf with ⟨hlt, hf'⟩ | ⟨hid, hfe⟩
      · have hi' : s.faceInfos[faceID]? = some info := by
          have hi2 : (s.faceInfos ++
            [(⟨-1, -1⟩ : FaceInfo).assign (Call.front (t, face)) t])[faceID]? = some info := hi
          rwa [List.getElem?_append_left (by rw [h.len_eq]; exact hlt)] at hi2
        have : ¬ (Call.key (t, face) = faceKey f ∧ Call.front (t, face) = b) :=
          fun e => hne faceID f hf' e.1.symm
        rw [if_neg this]
        exact h.side faceID f info hf' hi' b
      · subst hfe
        have hi2 : (s.faceInfos ++
            [(⟨-1, -1⟩ : FaceInfo).assign (Call.front (t, face)) t])[faceID]? = some info := hi
        rw [hid, ← h.len_eq, List.getElem?_concat_length] at hi2
        cases hi2
        have hlw : lastWriter (faceKey (Call.face (t, face))) b H (-1) = -1 :=
          lastWriter_of_no_key _ _ _ _ ((h.known _).mp hk)
        rw [faceInfo_side_assign, hlw]
        by_cases hb : Call.front (t, face) = b
        · simp [hb, Call.key]
        · simp [hb]; cases b <;> rfl
    · show s.faceIndices ++ [Call.face (t, face)] = _
      rw [sightingsByKey_append, ← h.faces]
      have : s.faceIndices.any (fun g => faceKey g == Call.key (t, face)) = false := by
        rw [List.any_eq_false]
        intro g hg
        obtain ⟨n, hn⟩ := List.mem_iff_getElem?.mp hg
        simpa using hne n g hn
      simp [this]
  | some faceID =>
    obtain ⟨f, hf, hfk⟩ := h.sound _ _ hk
    have hlt : faceID < s.faceInfos.length := by
      rw [h.len_eq]; exact lt_length_of_getElem? hf
    have hi : s.faceInfos[faceID]? = some (s.faceInfos[faceID]) := List.getElem?_eq_getElem hlt
    refine ⟨_, add_of_known s t face hassert hk hi, ?_, rfl, rfl⟩
    constructor
    · simp [h.len_eq]
    · exact h.sound
    · exact h.complete
    · intro K
      constructor
      · intro hl c hc
        rcases List.mem_append.mp hc with hc | hc
        · exact (h.known K).mp hl c hc
        · simp at hc; subst hc
          intro e; rw [← e, hk] at hl; cases hl
      · intro hall
        exact (h.known K).mpr (fun c hc => hall c (List.mem_append_left _ hc))
    · intro faceID' f' info' hf' hi' b
      rw [lastWriter_append]
      have hi2 : (s.faceInfos.set faceID
          ((s.faceInfos[faceID]).assign (Call.front (t, face)) t))[faceID']? = some info' := hi'
      by_cases hid : faceID = faceID'
      · subst hid
        rw [List.getElem?_set_self hlt] at hi2
        cases hi2
        have hff : f' = f := by rw [hf] at hf'; exact (Option.some.inj hf').symm
        subst hff
        rw [faceInfo_side_assign]
        by_cases hb : Call.front (t, face) = b
        · simp [hb, hfk]
        · simp [hb]; exact h.side faceID f' _ hf hi b
      · rw [List.getElem?_set_ne hid] at hi2
        have : ¬ (Call.key (t, face) = faceKey f' ∧ Call.front (t, face) = b) := by
          intro e
          have := h.complete faceID' f' hf'
          rw [← e.1, hk] at this
          exact hid (Option.some.inj this)
        rw [if_neg this]
        exact h.side faceID' f' info' hf' hi2 b
    · show s.faceIndices = _
      rw [sightingsByKey_append, ← h.faces]
      have : s.faceIndices.any (fun g => faceKey g == Call.key (t, face)) = true := by
        rw [List.any_eq_true]
        exact ⟨f, List.mem_iff_getElem?.mpr ⟨faceID, hf⟩, by simpa using hfk⟩
      simp [this]

/-! ## The loop in terms of its call history -/

theorem canonicalize_le (face : Vec3i) :
    (canonicalize face).1.x ≤ (canonicalize face).1.y ∧
    (canonicalize face).1.y ≤ (canonicalize face).1.z := by
  obtain ⟨a, b, c⟩ := face
  by_cases h1 : a > c <;> by_cases h2 : b > c <;> by_cases h3 : a > b <;>
    by_cases h4 : b > a <;> by_cases h5 : c > b <;> by_cases h6 : c > a <;>
    simp [canonicalize, h1, h2, h3, h4, h5, h6] <;> omega

theorem canonicalize_mem (face : Vec3i) :
    ((canonicalize face).1.x = face.x ∨ (canonicalize face).1.x = face.y ∨
      (canonicalize face).1.x = face.z) ∧
    ((canonicalize face).1.y = face.x ∨ (canonicalize face).1.y = face.y ∨
      (canonicalize face).1.y = face.z) ∧
    ((canonicalize face).1.z = face.x ∨ (canonicalize face).1.z = face.y ∨
      (canonicalize face).1.z = face.z) := by
  obtain ⟨a, b, c⟩ := face
  by_cases h1 : a > c <;> by_cases h2 : b > c <;> by_cases h3 : a > b <;>
    by_cases h4 : b > a <;> by_cases h5 : c > b <;> by_cases h6 : c > a <;>
    simp [canonicalize, h1, h2, h3, h4, h5, h6]

theorem canonicalize_lt (a b c : Int) (hab : a ≠ b) (hac : a ≠ c) (hbc : b ≠ c) :
    (canonicalize ⟨a, b, c⟩).1.x < (canonicalize ⟨a, b, c⟩).1.y ∧
    (canonicalize ⟨a, b, c⟩).1.y < (canonicalize ⟨a, b, c⟩).1.z := by
  by_cases h1 : a > c <;> by_cases h2 : b > c <;> by_cases h3 : a > b <;>
    by_cases h4 : b > a <;> by_cases h5 : c > b <;> by_cases h6 : c > a <;>
    simp [canonicalize, h1, h2, h3, h4, h5, h6] <;> omega

theorem vertexAt_of_inBounds {α : Type} (vertices : List (Vec3 α)) (i : Int) (h0 : 0 ≤ i)
    (h1 : i < vertices.length) : ∃ v, vertexAt vertices i = .ok v := by
  have hlt : i.toNat < vertices.length := by omega
  exact ⟨vertices[i.toNat], by simp [vertexAt, h0, List.getElem?_eq_getElem hlt]⟩

theorem tracks_of_eq {α : Type} {s s' : SharedFacesBuilder α} {H : List Call} (h : Tracks s H)
    (h1 : s'.faceInfos = s.faceInfos) (h2 : s'.faceIndices = s.faceIndices)
    (h3 : s'.knownFaces = s.knownFaces) : Tracks s' H := by
  constructor
  · rw [h1, h2]; exact h.len_eq
  · rw [h2, h3]; exact h.sound
  · rw [h2, h3]; exact h.complete
  · rw [h3]; exact h.known
  · rw [h1, h2]; exact h.side
  · rw [h2]; exact h.faces

theorem addFaces_tracks {α : Type} (tetID : Int) (faces : List Vec3i) :
    ∀ (s : SharedFacesBuilder α) (H : List Call), Tracks s H →
      (∀ face ∈ faces, Call.asserted (tetID, face)) →
      ∃ s', addFaces s tetID faces = .ok s' ∧
        Tracks s' (H ++ faces.map (fun face => (tetID, face))) ∧
        s'.faceVertices = s.faceVertices ∧ s'.maxEdgeLength = s.maxEdgeLength := by
  induction faces with
  | nil => intro s H h _; exact ⟨s, rfl, by simpa using h, rfl, rfl⟩
  | cons face rest ih =>
    intro s H h hall
    obtain ⟨s1, hs1, ht1, hv1, hm1⟩ := add_tracks s H h (tetID, face) (hall face (by simp))
    obtain ⟨s2, hs2, ht2, hv2, hm2⟩ :=
      ih s1 _ ht1 (fun f hf => hall f (List.mem_cons_of_mem _ hf))
    refine ⟨s2, ?_, ?_, hv2.trans hv1, hm2.trans hm1⟩
    · simp only [addFaces]
      have hs1' : s.add tetID face = .ok s1 := hs1
      rw [hs1']; exact hs2
    · simpa using ht2

section LoopHistory

variable {α : Type} [LinearOrderedCommRing α]

theorem tracks_initial (vertices : List (Vec3 α)) : Tracks (initial vertices) [] := by
  constructor <;> simp [initial, sightingsByKey]

theorem tetFaces_asserted (tetID : Int) (index : Vec4i) (h : ¬ index.hasRepeat) :
    ∀ face ∈ tetFaces index, Call.asserted (tetID, face) := by
  unfold Vec4i.hasRepeat at h
  push_neg at h
  obtain ⟨h1, h2, h3, h4, h5, h6⟩ := h
  intro face hf
  simp only [tetFaces, List.mem_cons, List.mem_singleton, List.not_mem_nil, or_false] at hf
  have aux : ∀ a b c : Int, a ≠ b → a ≠ c → b ≠ c → Call.asserted (tetID, ⟨a, b, c⟩) := by
    intro a b c hab hac hbc
    have := canonicalize_lt a b c hab hac hbc
    exact ⟨this.1, lt_trans this.1 this.2⟩
  rcases hf with rfl | rfl | rfl | rfl
  · exact aux _ _ _ h1 h2 h4
  · exact aux _ _ _ h5 h4 (Ne.symm h6)
  · exact aux _ _ _ h3 h1 (Ne.symm h5)
  · exact aux _ _ _ h6 (Ne.symm h2) (Ne.symm h3)

theorem orientIndex_hasRepeat (volume : α) (index : Vec4i) :
    (orientIndex volume index).hasRepeat ↔ index.hasRepeat := by
  unfold orientIndex
  split_ifs
  · simp only [Vec4i.hasRepeat]
    constructor <;> (intro h; rcases h with h | h | h | h | h | h <;> simp [h])
  · rfl

theorem emittedFaces_asserted (vertices : List (Vec3 α)) (tetID : Int) (index : Vec4i) :
    ∀ face ∈ emittedFaces vertices index, Call.asserted (tetID, face) := by
  intro face hf
  unfold emittedFaces at hf
  split_ifs at hf with hr
  · cases hf
  · split at hf
    · split_ifs at hf with hv
      · cases hf
      · exact tetFaces_asserted tetID _ (fun h => hr ((orientIndex_hasRepeat _ _).mp h)) face hf
    · cases hf

/-- One loop iteration on a tracked state: it succeeds when the indices are in bounds, extends the
history by the calls of this tetrahedron and leaves `maxEdgeLength` at `edgeBound`. -/
theorem loopBody_tracks (sqrt : α → α) (s : SharedFacesBuilder α) (H : List Call)
    (h : Tracks s H) (tetID : Nat) (index : Vec4i)
    (hb : index.hasRepeat ∨ index.inBounds s.faceVertices.length) :
    ∃ s', loopBody sqrt s tetID index = .ok s' ∧
      Tracks s' (H ++ tetCalls s.faceVertices tetID index) ∧
      s'.faceVertices = s.faceVertices ∧
      s'.maxEdgeLength = edgeBound sqrt s.faceVertices s.maxEdgeLength index := by
  by_cases hr : index.hasRepeat
  · exact ⟨s, by simp [loopBody, hr], by simpa [tetCalls, emittedFaces, hr] using h, rfl,
      by simp [edgeBound, hr]⟩
  · have hb' := hb.resolve_left hr
    obtain ⟨⟨hx0, hx1⟩, ⟨hy0, hy1⟩, ⟨hz0, hz1⟩, ⟨hw0, hw1⟩⟩ := hb'
    obtain ⟨A, hA⟩ := vertexAt_of_inBounds s.faceVertices index.x hx0 hx1
    obtain ⟨B, hB⟩ := vertexAt_of_inBounds s.faceVertices index.y hy0 hy1
    obtain ⟨C, hC⟩ := vertexAt_of_inBounds s.faceVertices index.z hz0 hz1
    obtain ⟨D, hD⟩ := vertexAt_of_inBounds s.faceVertices index.w hw0 hw1
    by_cases hv : signedVolume A B C D = 0
    · refine ⟨{ s with maxEdgeLength := updateMaxEdge sqrt s.maxEdgeLength A B C D }, ?_, ?_,
        rfl, ?_⟩
      · simp [loopBody, hr, hA, hB, hC, hD, hv]
      · have hnil : tetCalls s.faceVertices tetID index = [] := by
          simp [tetCalls, emittedFaces, hr, hA, hB, hC, hD, hv]
        rw [hnil, List.append_nil]
        exact tracks_of_eq h rfl rfl rfl
      · simp [edgeBound, hr, hA, hB, hC, hD]
    · have hem : emittedFaces s.faceVertices index =
          tetFaces (orientIndex (signedVolume A B C D) index) := by
        simp [emittedFaces, hr, hA, hB, hC, hD, hv]
      obtain ⟨s', hs', ht', hv', hm'⟩ := addFaces_tracks (tetID : Int)
        (tetFaces (orientIndex (signedVolume A B C D) index))
        { s with maxEdgeLength := updateMaxEdge sqrt s.maxEdgeLength A B C D } H
        (tracks_of_eq h rfl rfl rfl)
        (by rw [← hem]; exact emittedFaces_asserted _ _ _)
      refine ⟨s', ?_, ?_, hv', ?_⟩
      · simp [loopBody, hr, hA, hB, hC, hD, hv, hs']
      · simpa [tetCalls, hem] using ht'
      · rw [hm']; simp [edgeBound, hr, hA, hB, hC, hD]

/-- The state after `n` loop iterations exists when the input is in bounds, and it tracks the
history of all `add` calls made so far. -/
theorem loopState_tracks (sqrt : α → α) (vertices : List (Vec3 α)) (indices : List Vec4i)
    (hb : ∀ index ∈ indices, index.hasRepeat ∨ index.inBounds vertices.length) (n : Nat) :
    ∃ s, loopState sqrt vertices indices n = .ok s ∧
      Tracks s (allCalls vertices indices n) ∧ s.faceVertices = vertices ∧
      s.maxEdgeLength = edgeBoundAfter sqrt vertices indices n := by
  induction n with
  | zero => exact ⟨initial vertices, rfl, tracks_initial vertices, rfl, rfl⟩
  | succ n ih =>
    obtain ⟨s, hs, ht, hv, hm⟩ := ih
    cases hi : indices[n]? with
    | none =>
      exact ⟨s, by simp [loopState, hs, hi], by simpa [allCalls, hi] using ht, hv,
        by simp [edgeBoundAfter, hi, hm]⟩
    | some index =>
      have hmem : index ∈ indices := List.mem_iff_getElem?.mpr ⟨n, hi⟩
      obtain ⟨s', hs', ht', hv', hm'⟩ :=
        loopBody_tracks sqrt s _ ht n index (by rw [hv]; exact hb index hmem)
      refine ⟨s', by simp [loopState, hs, hi, hs'], ?_, hv'.trans hv, ?_⟩
      · simpa [allCalls, hi, hv] using ht'
      · rw [hm', hv, hm]; simp [edgeBoundAfter, hi]

end LoopHistory

/-! ## The key within the bit budget -/

theorem toUInt64_of_budget (i : Int) (h0 : 0 ≤ i) (h1 : i < 2 ^ 20) :
    toUInt64 i = i.toNat ∧ i.toNat < 2 ^ 20 := by
  unfold toUInt64
  have : i % 2 ^ 64 = i := Int.emod_eq_of_lt h0 (by omega)
  rw [this]
  exact ⟨rfl, by omega⟩

/-- Within the bit budget the key is the base-`2^20` number with digits `z`, `y`, `x`. -/
theorem faceKey_of_inBudget (f : Vec3i) (h : f.inBudget) :
    faceKey f = f.z.toNat * 2 ^ 40 + f.y.toNat * 2 ^ 20 + f.x.toNat := by
  obtain ⟨⟨hx0, hx1⟩, ⟨hy0, hy1⟩, ⟨hz0, hz1⟩⟩ := h
  obtain ⟨ex, bx⟩ := toUInt64_of_budget f.x hx0 hx1
  obtain ⟨ey, bY⟩ := toUInt64_of_budget f.y hy0 hy1
  obtain ⟨ez, bz⟩ := toUInt64_of_budget f.z hz0 hz1
  unfold faceKey
  rw [ex, ey, ez]
  generalize f.x.toNat = x at *
  generalize f.y.toNat = y at *
  generalize f.z.toNat = z at *
  have e1 : (z <<< 20) % 2 ^ 64 = 2 ^ 20 * z := by
    rw [Nat.shiftLeft_eq, Nat.mod_eq_of_lt (by omega)]; omega
  have e2 : 2 ^ 20 * z ||| y = 2 ^ 20 * z + y := (Nat.mul_add_lt_is_or bY z).symm
  have e3 : ((2 ^ 20 * z + y) <<< 20) % 2 ^ 64 = 2 ^ 20 * (2 ^ 20 * z + y) := by
    rw [Nat.shiftLeft_eq, Nat.mod_eq_of_lt (by omega)]; omega
  have e4 : 2 ^ 20 * (2 ^ 20 * z + y) ||| x = 2 ^ 20 * (2 ^ 20 * z + y) + x :=
    (Nat.mul_add_lt_is_or bx _).symm
  rw [e1, e2, e3, e4]
  omega

/-- Within the bit budget two faces with the same key are the same face. -/
theorem faceKey_injective_of_inBudget (f g : Vec3i) (hf : f.inBudget) (hg : g.inBudget)
    (h : faceKey f = faceKey g) : f = g := by
  rw [faceKey_of_inBudget f hf, faceKey_of_inBudget g hg] at h
  obtain ⟨⟨hx0, hx1⟩, ⟨hy0, hy1⟩, ⟨hz0, hz1⟩⟩ := hf
  obtain ⟨⟨gx0, gx1⟩, ⟨gy0, gy1⟩, ⟨gz0, gz1⟩⟩ := hg
  obtain ⟨fx, fy, fz⟩ := f
  obtain ⟨gx, gy, gz⟩ := g
  simp only at *
  have : fx = gx ∧ fy = gy ∧ fz = gz := by omega
  simp [this]

/-- Beyond the bit budget distinct canonical faces can share a key. -/
theorem faceKey_collision :
    faceKey ⟨0, 2 ^ 20, 2 ^ 20 + 2⟩ = faceKey ⟨0, 2 ^ 20, 2 ^ 20 + 3⟩ := by
  decide

/-! ## Who wrote last -/

theorem lastWriter_cons (K : Nat) (b : Bool) (c : Call) (H : List Call) (v : Int) :
    lastWriter K b (c :: H) v = lastWriter K b H (if c.key = K ∧ c.front = b then c.1 else v) := by
  simp [lastWriter]

theorem lastWriter_append_list (K : Nat) (b : Bool) (H H' : List Call) (v : Int) :
    lastWriter K b (H ++ H') v = lastWriter K b H' (lastWriter K b H v) := by
  simp [lastWriter, List.foldl_append]

theorem lastWriter_map_of_exists (K : Nat) (b : Bool) (t : Int) (faces : List Vec3i) :
    ∀ v : Int, (∃ face ∈ faces, faceKey (canonicalize face).1 = K ∧ (canonicalize face).2 = b) →
      lastWriter K b (faces.map (fun face => (t, face))) v = t := by
  induction faces with
  | nil => intro v h; obtain ⟨_, hf, _⟩ := h; cases hf
  | cons face rest ih =>
    intro v h
    rw [List.map_cons, lastWriter_cons]
    by_cases hr : ∃ face ∈ rest, faceKey (canonicalize face).1 = K ∧ (canonicalize face).2 = b
    · exact ih _ hr
    · obtain ⟨g, hg, hgk⟩ := h
      rcases List.mem_cons.mp hg with rfl | hg'
      · have hc : Call.key (t, g) = K ∧ Call.front (t, g) = b := hgk
        rw [if_pos hc]
        apply lastWriter_of_no_key_side
        intro c hc' hkey
        obtain ⟨f, hf, rfl⟩ := List.mem_map.mp hc'
        exact hr ⟨f, hf, hkey⟩
      · exact absurd ⟨g, hg', hgk⟩ hr

theorem lastWriter_map_of_not_exists (K : Nat) (b : Bool) (t : Int) (faces : List Vec3i)
    (v : Int)
    (h : ¬ ∃ face ∈ faces, faceKey (canonicalize face).1 = K ∧ (canonicalize face).2 = b) :
    lastWriter K b (faces.map (fun face => (t, face))) v = v := by
  apply lastWriter_of_no_key_side
  intro c hc hkey
  obtain ⟨f, hf, rfl⟩ := List.mem_map.mp hc
  exact h ⟨f, hf, hkey⟩

section LastWriter

variable {α : Type} [LinearOrderedCommRing α]

theorem lastWriter_allCalls_succ (vertices : List (Vec3 α)) (indices : List Vec4i) (K : Nat)
    (b : Bool) (v : Int) (n : Nat) (index : Vec4i) (hi : indices[n]? = some index) :
    (emitsTo vertices index K b → lastWriter K b (allCalls vertices indices (n + 1)) v = n) ∧
    (¬ emitsTo vertices index K b → lastWriter K b (allCalls vertices indices (n + 1)) v =
      lastWriter K b (allCalls vertices indices n) v) := by
  simp only [allCalls, hi, lastWriter_append_list, tetCalls]
  exact ⟨fun h => lastWriter_map_of_exists K b n _ _ h,
    fun h => lastWriter_map_of_not_exists K b n _ _ h⟩

/-- After `n` iterations the last writer of a slot side is the latest tetrahedron among the first
`n` that writes there, and the initial value when there is none. -/
theorem lastWriter_allCalls (vertices : List (Vec3 α)) (indices : List Vec4i) (K : Nat)
    (b : Bool) (v : Int) (n : Nat) :
    (lastWriter K b (allCalls vertices indices n) v = v ∧
      ∀ t index, t < n → indices[t]? = some index → ¬ emitsTo vertices index K b) ∨
    (∃ t index, t < n ∧ indices[t]? = some index ∧ emitsTo vertices index K b ∧
      lastWriter K b (allCalls vertices indices n) v = t ∧
      ∀ t' index', t < t' → t' < n → indices[t']? = some index' →
        ¬ emitsTo vertices index' K b) := by
  induction n with
  | zero => left; exact ⟨rfl, fun t _ ht => absurd ht (Nat.not_lt_zero t)⟩
  | succ n ih =>
    cases hi : indices[n]? with
    | none =>
      have hsame : allCalls vertices indices (n + 1) = allCalls vertices indices n := by
        simp [allCalls, hi]
      rw [hsame]
      rcases ih with ⟨h1, h2⟩ | ⟨t, index, htn, hti, hem, hval, hlater⟩
      · left
        refine ⟨h1, fun t index ht hti => ?_⟩
        rcases Nat.lt_succ_iff_lt_or_eq.mp ht with h | h
        · exact h2 t index h hti
        · subst h; rw [hi] at hti; cases hti
      · right
        refine ⟨t, index, Nat.lt_succ_of_lt htn, hti, hem, hval, fun t' index' h1 h2 h3 => ?_⟩
        rcases Nat.lt_succ_iff_lt_or_eq.mp h2 with h | h
        · exact hlater t' index' h1 h h3
        · subst h; rw [hi] at h3; cases h3
    | some index =>
      obtain ⟨hyes, hno⟩ := lastWriter_allCalls_succ vertices indices K b v n index hi
      by_cases hem : emitsTo vertices index K b
      · right
        exact ⟨n, index, Nat.lt_succ_self n, hi, hem, hyes hem,
          fun t' _ h1 h2 _ => absurd h1 (by omega)⟩
      · rw [hno hem]
        rcases ih with ⟨h1, h2⟩ | ⟨t, index0, htn, hti, hem0, hval, hlater⟩
        · left
          refine ⟨h1, fun t index' ht hti => ?_⟩
          rcases Nat.lt_succ_iff_lt_or_eq.mp ht with h | h
          · exact h2 t index' h hti
          · subst h; rw [hi] at hti; cases hti; exact hem
        · right
          refine ⟨t, index0, Nat.lt_succ_of_lt htn, hti, hem0, hval,
            fun t' index' h1 h2 h3 => ?_⟩
          rcases Nat.lt_succ_iff_lt_or_eq.mp h2 with h | h
          · exact hlater t' index' h1 h h3
          · subst h; rw [hi] at h3; cases h3; exact hem

/-- The latest tetrahedron writing into a slot side is its last writer. -/
theorem lastWriter_allCalls_of_latest (vertices : List (Vec3 α)) (indices : List Vec4i)
    (K : Nat) (b : Bool) (v : Int) (n t : Nat) (index : Vec4i) (ht : t < n)
    (hti : indices[t]? = some index) (hem : emitsTo vertices index K b)
    (hlater : ∀ t' index', t < t' → t' < n → indices[t']? = some index' →
      ¬ emitsTo vertices index' K b) :
    lastWriter K b (allCalls vertices indices n) v = t := by
  rcases lastWriter_allCalls vertices indices K b v n with
    ⟨_, h2⟩ | ⟨t0, index0, ht0, hti0, hem0, hval, hlater0⟩
  · exact absurd hem (h2 t index ht hti)
  · rw [hval]
    rcases Nat.lt_trichotomy t t0 with h | h | h
    · exact absurd hem0 (hlater t0 index0 h ht0 hti0)
    · rw [h]
    · exact absurd hem (hlater0 t index h ht hti)

end LastWriter

/-! ## Vertex reads and the edge bound -/

section EdgeBound

variable {α : Type} [LinearOrderedCommRing α]

theorem vertexAt_eq_vertexOf (vertices : List (Vec3 α)) (i : Int) (h0 : 0 ≤ i)
    (h1 : i < vertices.length) : vertexAt vertices i = .ok (vertexOf vertices i) := by
  have hlt : i.toNat < vertices.length := by omega
  simp [vertexAt, vertexOf, h0, List.getElem?_eq_getElem hlt, List.getD_eq_getElem?_getD]

theorem emittedFaces_of_inBounds (vertices : List (Vec3 α)) (index : Vec4i)
    (hb : index.inBounds vertices.length) :
    emittedFaces vertices index =
      if index.hasRepeat then []
      else if tetVolume vertices index = 0 then []
      else tetFaces (orientIndex (tetVolume vertices index) index) := by
  obtain ⟨⟨hx0, hx1⟩, ⟨hy0, hy1⟩, ⟨hz0, hz1⟩, ⟨hw0, hw1⟩⟩ := hb
  simp only [emittedFaces, vertexAt_eq_vertexOf _ _ hx0 hx1, vertexAt_eq_vertexOf _ _ hy0 hy1,
    vertexAt_eq_vertexOf _ _ hz0 hz1, vertexAt_eq_vertexOf _ _ hw0 hw1, tetVolume]

theorem edgeBound_of_inBounds (sqrt : α → α) (vertices : List (Vec3 α)) (m : α) (index : Vec4i)
    (hb : index.inBounds vertices.length) :
    edgeBound sqrt vertices m index =
      if index.hasRepeat then m
      else updateMaxEdge sqrt m (vertexOf vertices index.x) (vertexOf vertices index.y)
        (vertexOf vertices index.z) (vertexOf vertices index.w) := by
  obtain ⟨⟨hx0, hx1⟩, ⟨hy0, hy1⟩, ⟨hz0, hz1⟩, ⟨hw0, hw1⟩⟩ := hb
  simp only [edgeBound, vertexAt_eq_vertexOf _ _ hx0 hx1, vertexAt_eq_vertexOf _ _ hy0 hy1,
    vertexAt_eq_vertexOf _ _ hz0 hz1, vertexAt_eq_vertexOf _ _ hw0 hw1]

theorem le_updateMaxEdge (sqrt : α → α) (m : α) (A B C D : Vec3 α) :
    m ≤ updateMaxEdge sqrt m A B C D := by
  simp [updateMaxEdge]

theorem updateMaxEdge_mem (sqrt : α → α) (m : α) (A B C D : Vec3 α) :
    updateMaxEdge sqrt m A B C D = m ∨
    updateMaxEdge sqrt m A B C D ∈
      [length sqrt (B.sub A), length sqrt (C.sub A), length sqrt (D.sub A),
       length sqrt (C.sub B), length sqrt (D.sub B), length sqrt (D.sub C)] := by
  simp only [updateMaxEdge, List.mem_cons, List.mem_singleton, List.not_mem_nil, or_false]
  rcases max_choice (max (max (max (max (max m (length sqrt (B.sub A)))
    (length sqrt (C.sub A))) (length sqrt (D.sub A))) (length sqrt (C.sub B)))
    (length sqrt (D.sub B))) (length sqrt (D.sub C)) with h6 | h6
  · rw [h6]
    rcases max_choice (max (max (max (max m (length sqrt (B.sub A)))
      (length sqrt (C.sub A))) (length sqrt (D.sub A))) (length sqrt (C.sub B)))
      (length sqrt (D.sub B)) with h5 | h5
    · rw [h5]
      rcases max_choice (max (max (max m (length sqrt (B.sub A)))
        (length sqrt (C.sub A))) (length sqrt (D.sub A))) (length sqrt (C.sub B)) with h4 | h4
      · rw [h4]
        rcases max_choice (max (max m (length sqrt (B.sub A)))
          (length sqrt (C.sub A))) (length sqrt (D.sub A)) with h3 | h3
        · rw [h3]
          rcases max_choice (max m (length sqrt (B.sub A))) (length sqrt (C.sub A)) with h2 | h2
          · rw [h2]
            rcases max_choice m (length sqrt (B.sub A)) with h1 | h1
            · rw [h1]; exact Or.inl rfl
            · rw [h1]; simp
          · rw [h2]; simp
        · rw [h3]; simp
      · rw [h4]; simp
    · rw [h5]; simp
  · rw [h6]; simp

theorem edge_le_updateMaxEdge (sqrt : α → α) (m : α) (A B C D : Vec3 α) :
    ∀ e ∈ [length sqrt (B.sub A), length sqrt (C.sub A), length sqrt (D.sub A),
       length sqrt (C.sub B), length sqrt (D.sub B), length sqrt (D.sub C)],
      e ≤ updateMaxEdge sqrt m A B C D := by
  intro e he
  simp only [List.mem_cons, List.mem_singleton, List.not_mem_nil, or_false] at he
  rcases he with rfl | rfl | rfl | rfl | rfl | rfl <;> simp [updateMaxEdge]

theorem le_edgeBound (sqrt : α → α) (vertices : List (Vec3 α)) (m : α) (index : Vec4i) :
    m ≤ edgeBound sqrt vertices m index := by
  unfold edgeBound
  split_ifs
  · exact le_refl m
  · split
    · exact le_updateMaxEdge sqrt m _ _ _ _
    · exact le_refl m

theorem edgeBoundAfter_mono (sqrt : α → α) (vertices : List (Vec3 α)) (indices : List Vec4i)
    (n : Nat) :
    edgeBoundAfter sqrt vertices indices n ≤ edgeBoundAfter sqrt vertices indices (n + 1) := by
  simp only [edgeBoundAfter]
  cases indices[n]? with
  | none => exact le_refl _
  | some index => exact le_edgeBound sqrt vertices _ index

theorem edgeBoundAfter_mono_le (sqrt : α → α) (vertices : List (Vec3 α)) (indices : List Vec4i)
    {m n : Nat} (h : m ≤ n) :
    edgeBoundAfter sqrt vertices indices m ≤ edgeBoundAfter sqrt vertices indices n := by
  induction h with
  | refl => exact le_refl _
  | step _ ih => exact le_trans ih (edgeBoundAfter_mono sqrt vertices indices _)

theorem edge_le_edgeBoundAfter (sqrt : α → α) (vertices : List (Vec3 α)) (indices : List Vec4i)
    (n k : Nat) (index : Vec4i) (hk : k < n) (hi : indices[k]? = some index)
    (hb : index.inBounds vertices.length) (hr : ¬ index.hasRepeat) :
    ∀ e ∈ edgeLengths sqrt vertices index, e ≤ edgeBoundAfter sqrt vertices indices n := by
  intro e he
  have h1 : e ≤ edgeBoundAfter sqrt vertices indices (k + 1) := by
    simp only [edgeBoundAfter, hi, edgeBound_of_inBounds sqrt vertices _ index hb, if_neg hr]
    exact edge_le_updateMaxEdge sqrt _ _ _ _ _ e he
  exact le_trans h1 (edgeBoundAfter_mono_le sqrt vertices indices hk)

theorem edgeBoundAfter_mem (sqrt : α → α) (vertices : List (Vec3 α)) (indices : List Vec4i)
    (hb : InBounds vertices indices) (n : Nat) :
    edgeBoundAfter sqrt vertices indices n = 0 ∨
    ∃ k index, k < n ∧ indices[k]? = some index ∧ ¬ index.hasRepeat ∧
      edgeBoundAfter sqrt vertices indices n ∈ edgeLengths sqrt vertices index := by
  induction n with
  | zero => left; rfl
  | succ n ih =>
    have hstep : ∀ P : α → Prop, P (edgeBoundAfter sqrt vertices indices n) →
        (∀ index, indices[n]? = some index → ¬ index.hasRepeat →
          ∀ e ∈ edgeLengths sqrt vertices index, P e) →
        P (edgeBoundAfter sqrt vertices indices (n + 1)) := by
      intro P hP hnew
      simp only [edgeBoundAfter]
      cases hi : indices[n]? with
      | none => exact hP
      | some index =>
        have hbi := hb index (List.mem_iff_getElem?.mpr ⟨n, hi⟩)
        simp only [edgeBound_of_inBounds sqrt vertices _ index hbi]
        split_ifs with hr
        · exact hP
        · rcases updateMaxEdge_mem sqrt (edgeBoundAfter sqrt vertices indices n)
            (vertexOf vertices index.x) (vertexOf vertices index.y)
            (vertexOf vertices index.z) (vertexOf vertices index.w) with h | h
          · rw [h]; exact hP
          · exact hnew index hi hr _ h
    apply hstep (fun x => x = 0 ∨ ∃ k index, k < n + 1 ∧ indices[k]? = some index ∧
      ¬ index.hasRepeat ∧ x ∈ edgeLengths sqrt vertices index)
    · rcases ih with h | ⟨k, index, hk, hi, hr, hm⟩
      · exact Or.inl h
      · exact Or.inr ⟨k, index, Nat.lt_succ_of_lt hk, hi, hr, hm⟩
    · intro index hi hr e he
      exact Or.inr ⟨n, index, Nat.lt_succ_self n, hi, hr, he⟩

end EdgeBound

/-! ## The concrete scenario -/

section ScenarioFacts

variable {α : Type} [LinearOrderedCommRing α]

theorem unitTet_volume :
    tetVolume (unitTetVertices : List (Vec3 α)) ⟨0, 1, 2, 3⟩ = 1 := by
  simp [tetVolume, vertexOf, unitTetVertices, signedVolume, dot, cross, Vec3.sub]

theorem unitTet_inBounds : InBounds (unitTetVertices : List (Vec3 α)) unitTetIndices := by
  intro index h
  simp only [unitTetIndices, List.mem_singleton] at h
  subst h
  simp [Vec4i.inBounds, unitTetVertices]

theorem unitTet_emittedFaces :
    emittedFaces (unitTetVertices : List (Vec3 α)) ⟨0, 1, 2, 3⟩ = tetFaces ⟨0, 1, 2, 3⟩ := by
  have hr : ¬ (⟨0, 1, 2, 3⟩ : Vec4i).hasRepeat := by decide
  have h1 : ¬ ((1 : α) < 0) := by norm_num
  rw [emittedFaces_of_inBounds _ _ (unitTet_inBounds _ (by simp [unitTetIndices])), if_neg hr,
    unitTet_volume]
  simp [orientIndex, h1]

theorem unitTet_faceGraph (sqrt : α → α) :
    faceGraph (SharedFacesBuilder.SharedFacesBuilder sqrt (unitTetVertices : List (Vec3 α))
      unitTetIndices) =
    .ok ([⟨0, 1, 2⟩, ⟨1, 2, 3⟩, ⟨0, 1, 3⟩, ⟨0, 2, 3⟩],
         [⟨0, -1⟩, ⟨-1, 0⟩, ⟨-1, 0⟩, ⟨0, -1⟩]) := by
  have hr : ¬ (⟨0, 1, 2, 3⟩ : Vec4i).hasRepeat := by decide
  have h1 : ¬ ((1 : α) < 0) := by norm_num
  have hv : signedVolume (⟨0, 0, 0⟩ : Vec3 α) ⟨1, 0, 0⟩ ⟨0, 1, 0⟩ ⟨0, 0, 1⟩ = 1 := by
    simp [signedVolume, dot, cross, Vec3.sub]
  simp only [SharedFacesBuilder.SharedFacesBuilder, unitTetIndices, unitTetVertices, loopState,
    List.length_singleton, initial, loopBody, hr, if_false, vertexAt]
  simp [hv, orientIndex, h1, tetFaces, addFaces]
  simp [hr, SharedFacesBuilder.add, canonicalize, writeInfo, FaceInfo.assign, List.lookup, faceKey,
    toUInt64, faceGraph]

/-- C4 (as amended). For the vertices `(0,0,0)`, `(1,0,0)`, `(0,1,0)`, `(0,0,1)` and the single
tetrahedron `(0,1,2,3)` the constructor computes the positive signed volume `1`, swaps no vertex
(the four faces handed to `add` are those of the index as given), stores exactly the four faces
`(0,1,2)`, `(1,2,3)`, `(0,1,3)`, `(0,2,3)`, and records tetrahedron `0` in `front` of `(0,1,2)` and
`(0,2,3)` and in `back` of `(1,2,3)` and `(0,1,3)`, the other entry being `-1`. -/
theorem unitTet_scenario (sqrt : α → α) :
    0 < tetVolume (unitTetVertices : List (Vec3 α)) ⟨0, 1, 2, 3⟩ ∧
    orientIndex (tetVolume (unitTetVertices : List (Vec3 α)) ⟨0, 1, 2, 3⟩) ⟨0, 1, 2, 3⟩ =
      ⟨0, 1, 2, 3⟩ ∧
    emittedFaces (unitTetVertices : List (Vec3 α)) ⟨0, 1, 2, 3⟩ = tetFaces ⟨0, 1, 2, 3⟩ ∧
    faceGraph (SharedFacesBuilder.SharedFacesBuilder sqrt (unitTetVertices : List (Vec3 α))
      unitTetIndices) =
    .ok ([⟨0, 1, 2⟩, ⟨1, 2, 3⟩, ⟨0, 1, 3⟩, ⟨0, 2, 3⟩],
         [⟨0, -1⟩, ⟨-1, 0⟩, ⟨-1, 0⟩, ⟨0, -1⟩]) := by
  have h1 : ¬ ((1 : α) < 0) := by norm_num
  refine ⟨?_, ?_, unitTet_emittedFaces, unitTet_faceGraph sqrt⟩
  · rw [unitTet_volume]; exact one_pos
  · rw [unitTet_volume]; simp [orientIndex, h1]

end ScenarioFacts

/-- C4 (as stated) fails: over the reals, the builder of the unit tetrahedron does not have
`front = 0, back = -1` in every stored face. -/
theorem unitTet_not_all_front :
    ¬ ∃ s, SharedFacesBuilder.SharedFacesBuilder Real.sqrt (unitTetVertices : List (Vec3 ℝ))
        unitTetIndices = .ok s ∧
      s.faceIndices.length = 4 ∧ ∀ info ∈ s.faceInfos, info = ⟨0, -1⟩ := by
  rintro ⟨s, hs, _, hall⟩
  have h := unitTet_faceGraph Real.sqrt
  rw [hs] at h
  simp only [faceGraph, Except.ok.injEq, Prod.mk.injEq] at h
  have hbad := hall ⟨-1, 0⟩ (by rw [h.2]; simp)
  exact absurd hbad (by decide)

/-! ## Absence of faults -/

/-- The faults of the model are reachable: an index past the vertex array stops the constructor. -/
theorem vertex_fault_example :
    (SharedFacesBuilder.SharedFacesBuilder (fun x => x) (unitTetVertices : List (Vec3 Int))
      [⟨0, 1, 2, 4⟩]).toOption.isNone = true := by
  decide

/-- The faults of the model are reachable: `add` on a face with a repeated smallest index fails
the assertion. -/
theorem assertion_fault_example :
    ((initial (unitTetVertices : List (Vec3 Int))).add 0 ⟨1, 2, 1⟩).toOption.isNone = true := by
  decide

theorem inBounds_or {α : Type} (vertices : List (Vec3 α)) (indices : List Vec4i)
    (hb : InBounds vertices indices) :
    ∀ index ∈ indices, index.hasRepeat ∨ index.inBounds vertices.length :=
  fun index h => Or.inr (hb index h)

section Safety

variable {α : Type} [LinearOrderedCommRing α]

theorem allCalls_asserted (vertices : List (Vec3 α)) (indices : List Vec4i) (n : Nat) :
    ∀ c ∈ allCalls vertices indices n, c.asserted := by
  induction n with
  | zero => intro c hc; cases hc
  | succ n ih =>
    intro c hc
    simp only [allCalls, List.mem_append] at hc
    rcases hc with hc | hc
    · exact ih c hc
    · cases hi : indices[n]? with
      | none => rw [hi] at hc; cases hc
      | some index =>
        rw [hi] at hc
        obtain ⟨f, hf, rfl⟩ := List.mem_map.mp hc
        exact emittedFaces_asserted vertices _ index f hf

/-- C10. When every index of every input tetrahedron lies in `[0, numVertices)` the constructor
returns a builder and raises no fault: after any number of loop iterations the state exists (no
vertex read was out of range), every face id in the lookup table is smaller than the length of
`faceInfos`, and every `add` call made passes the assertion `face.x < face.y && face.x < face.z`. -/
theorem constructor_never_faults (sqrt : α → α) (vertices : List (Vec3 α))
    (indices : List Vec4i) (hb : InBounds vertices indices) :
    (∃ s, SharedFacesBuilder.SharedFacesBuilder sqrt vertices indices = .ok s) ∧
    (∀ n, ∃ s, loopState sqrt vertices indices n = .ok s ∧ s.faceVertices = vertices ∧
      s.faceInfos.length = s.faceIndices.length ∧
      ∀ (K faceID : Nat), s.knownFaces.lookup K = some faceID → faceID < s.faceInfos.length) ∧
    (∀ c ∈ allCalls vertices indices indices.length,
      (canonicalize c.2).1.x < (canonicalize c.2).1.y ∧
      (canonicalize c.2).1.x < (canonicalize c.2).1.z) := by
  refine ⟨?_, ?_, allCalls_asserted vertices indices indices.length⟩
  · obtain ⟨s, hs, _⟩ :=
      loopState_tracks sqrt vertices indices (inBounds_or vertices indices hb) indices.length
    exact ⟨s, hs⟩
  · intro n
    obtain ⟨s, hs, ht, hv, _⟩ :=
      loopState_tracks sqrt vertices indices (inBounds_or vertices indices hb) n
    refine ⟨s, hs, hv, ht.len_eq, fun K faceID hl => ?_⟩
    obtain ⟨f, hf, _⟩ := ht.sound K faceID hl
    rw [ht.len_eq]
    exact lt_length_of_getElem? hf

end Safety

/-- C10 at the unit tetrahedron over the reals. -/
theorem constructor_never_faults_witness :
    InBounds (unitTetVertices : List (Vec3 ℝ)) unitTetIndices ∧
    ∃ s, SharedFacesBuilder.SharedFacesBuilder Real.sqrt (unitTetVertices : List (Vec3 ℝ))
      unitTetIndices = .ok s :=
  ⟨unitTet_inBounds, (constructor_never_faults Real.sqrt unitTetVertices unitTetIndices
    unitTet_inBounds).1⟩

/-! ## `maxEdgeLength` -/

section MaxEdge

variable {α : Type} [LinearOrderedCommRing α]

/-- C6. With in-bounds indices and exact arithmetic: the state after `n` loop iterations exists,
its `maxEdgeLength` is at least the length of each of the six edges of every non-degenerate
tetrahedron among the first `n`, the next iteration does not decrease it, and it starts at `0`. -/
theorem maxEdgeLength_monotone_bound (sqrt : α → α) (vertices : List (Vec3 α))
    (indices : List Vec4i) (hb : InBounds vertices indices) (n : Nat) :
    ∃ s s', loopState sqrt vertices indices n = .ok s ∧
      loopState sqrt vertices indices (n + 1) = .ok s' ∧
      s.maxEdgeLength ≤ s'.maxEdgeLength ∧
      (∀ k index, k < n → indices[k]? = some index → NonDegenerate vertices index →
        ∀ e ∈ edgeLengths sqrt vertices index, e ≤ s.maxEdgeLength) ∧
      ∃ s0, loopState sqrt vertices indices 0 = .ok s0 ∧ s0.maxEdgeLength = 0 := by
  obtain ⟨s, hs, _, _, hm⟩ :=
    loopState_tracks sqrt vertices indices (inBounds_or vertices indices hb) n
  obtain ⟨s', hs', _, _, hm'⟩ :=
    loopState_tracks sqrt vertices indices (inBounds_or vertices indices hb) (n + 1)
  refine ⟨s, s', hs, hs', ?_, ?_, initial vertices, rfl, rfl⟩
  · rw [hm, hm']; exact edgeBoundAfter_mono sqrt vertices indices n
  · intro k index hk hi hnd e he
    rw [hm]
    exact edge_le_edgeBoundAfter sqrt vertices indices n k index hk hi
      (hb index (List.mem_iff_getElem?.mpr ⟨k, hi⟩)) hnd.1 e he

/-- C5 (as amended). With in-bounds indices, exact arithmetic and a non-negative square root: the
`maxEdgeLength` left by the constructor is the maximum Euclidean length over the six edges of all
tetrahedra with four pairwise-distinct indices, whatever their signed volume: it bounds every such
edge and is the length of one of them, and it is `0` when every tetrahedron has a repeated
index. -/
theorem maxEdgeLength_eq_max (sqrt : α → α) (hsqrt : ∀ x, 0 ≤ sqrt x)
    (vertices : List (Vec3 α)) (indices : List Vec4i) (hb : InBounds vertices indices) :
    ∃ s, SharedFacesBuilder.SharedFacesBuilder sqrt vertices indices = .ok s ∧
      (∀ index ∈ indices, ¬ index.hasRepeat →
        ∀ e ∈ edgeLengths sqrt vertices index, e ≤ s.maxEdgeLength) ∧
      ((∃ index ∈ indices, ¬ index.hasRepeat ∧
          s.maxEdgeLength ∈ edgeLengths sqrt vertices index) ∨
       ((∀ index ∈ indices, index.hasRepeat) ∧ s.maxEdgeLength = 0)) := by
  obtain ⟨s, hs, _, _, hm⟩ :=
    loopState_tracks sqrt vertices indices (inBounds_or vertices indices hb) indices.length
  have hub : ∀ index ∈ indices, ¬ index.hasRepeat →
      ∀ e ∈ edgeLengths sqrt vertices index, e ≤ s.maxEdgeLength := by
    intro index hmem hr e he
    obtain ⟨k, hk⟩ := List.mem_iff_getElem?.mp hmem
    rw [hm]
    exact edge_le_edgeBoundAfter sqrt vertices indices indices.length k index
      (lt_length_of_getElem? hk) hk (hb index hmem) hr e he
  refine ⟨s, hs, hub, ?_⟩
  rcases edgeBoundAfter_mem sqrt vertices indices hb indices.length with h0 | ⟨k, index, _, hi, hr, hmem⟩
  · by_cases hall : ∀ index ∈ indices, index.hasRepeat
    · exact Or.inr ⟨hall, by rw [hm, h0]⟩
    · push_neg at hall
      obtain ⟨index, hmem, hr⟩ := hall
      left
      refine ⟨index, hmem, hr, ?_⟩
      have hle := hub index hmem hr (length sqrt ((vertexOf vertices index.y).sub
        (vertexOf vertices index.x))) (by simp [edgeLengths])
      have hge : 0 ≤ length sqrt ((vertexOf vertices index.y).sub (vertexOf vertices index.x)) :=
        hsqrt _
      have h00 : s.maxEdgeLength = 0 := by rw [hm, h0]
      have : s.maxEdgeLength =
          length sqrt ((vertexOf vertices index.y).sub (vertexOf vertices index.x)) := by
        rw [h00] at hle ⊢
        exact le_antisymm hge hle
      rw [this]; simp [edgeLengths]
  · exact Or.inl ⟨index, List.mem_iff_getElem?.mpr ⟨k, hi⟩, hr, by rw [hm]; exact hmem⟩

end MaxEdge

theorem flat_inBounds : InBounds (flatVertices : List (Vec3 ℝ)) unitTetIndices := by
  intro index h
  simp only [unitTetIndices, List.mem_singleton] at h
  subst h
  simp [Vec4i.inBounds, flatVertices]

theorem flat_volume : tetVolume (flatVertices : List (Vec3 ℝ)) ⟨0, 1, 2, 3⟩ = 0 := by
  simp [tetVolume, vertexOf, flatVertices, signedVolume, dot, cross, Vec3.sub]

/-- C6 at the unit tetrahedron over the reals. -/
theorem maxEdgeLength_monotone_bound_witness :
    InBounds (unitTetVertices : List (Vec3 ℝ)) unitTetIndices ∧
    ∃ s s', loopState Real.sqrt (unitTetVertices : List (Vec3 ℝ)) unitTetIndices 1 = .ok s ∧
      loopState Real.sqrt (unitTetVertices : List (Vec3 ℝ)) unitTetIndices 2 = .ok s' ∧
      s.maxEdgeLength ≤ s'.maxEdgeLength :=
  ⟨unitTet_inBounds,
    (maxEdgeLength_monotone_bound Real.sqrt unitTetVertices unitTetIndices unitTet_inBounds 1).imp
      (fun _ h => h.imp (fun _ h' => ⟨h'.1, h'.2.1, h'.2.2.1⟩))⟩

/-- C5 (as amended) at four collinear vertices over the reals. -/
theorem maxEdgeLength_eq_max_witness :
    (∀ x, 0 ≤ Real.sqrt x) ∧ InBounds (flatVertices : List (Vec3 ℝ)) unitTetIndices ∧
    ∃ s, SharedFacesBuilder.SharedFacesBuilder Real.sqrt (flatVertices : List (Vec3 ℝ))
        unitTetIndices = .ok s ∧
      ∀ index ∈ unitTetIndices, ¬ index.hasRepeat →
        ∀ e ∈ edgeLengths Real.sqrt (flatVertices : List (Vec3 ℝ)) index, e ≤ s.maxEdgeLength :=
  ⟨Real.sqrt_nonneg, flat_inBounds,
    (maxEdgeLength_eq_max Real.sqrt Real.sqrt_nonneg flatVertices unitTetIndices
      flat_inBounds).imp (fun _ h => ⟨h.1, h.2.1⟩)⟩

/-- C5 (as stated) fails: the four collinear vertices `(0,0,0)`, `(1,0,0)`, `(2,0,0)`, `(3,0,0)`
with the tetrahedron `(0,1,2,3)` have no non-degenerate tetrahedron (the signed volume is zero),
yet the constructor leaves `maxEdgeLength = 3`, the length of the edge from vertex 0 to vertex 3,
instead of `0`. -/
theorem flat_tet_contributes :
    (∀ index ∈ unitTetIndices, ¬ NonDegenerate (flatVertices : List (Vec3 ℝ)) index) ∧
    ∃ s, SharedFacesBuilder.SharedFacesBuilder Real.sqrt (flatVertices : List (Vec3 ℝ))
        unitTetIndices = .ok s ∧ s.maxEdgeLength = 3 := by
  constructor
  · intro index h
    simp only [unitTetIndices, List.mem_singleton] at h
    subst h
    exact fun hnd => hnd.2 flat_volume
  · obtain ⟨s, hs, _, _, hm⟩ := loopState_tracks Real.sqrt (flatVertices : List (Vec3 ℝ))
      unitTetIndices (inBounds_or _ _ flat_inBounds) unitTetIndices.length
    refine ⟨s, hs, ?_⟩
    rw [hm]
    have hr : ¬ (⟨0, 1, 2, 3⟩ : Vec4i).hasRepeat := by decide
    have h9 : Real.sqrt 9 = 3 := by
      rw [show (9 : ℝ) = 3 ^ 2 by norm_num]; exact Real.sqrt_sq (by norm_num)
    have h4 : Real.sqrt 4 = 2 := by
      rw [show (4 : ℝ) = 2 ^ 2 by norm_num]; exact Real.sqrt_sq (by norm_num)
    simp only [unitTetIndices, List.length_singleton, edgeBoundAfter]
    rw [show ([⟨0, 1, 2, 3⟩] : List Vec4i)[0]? = some ⟨0, 1, 2, 3⟩ from rfl]
    simp only [edgeBound_of_inBounds Real.sqrt _ _ _
      (flat_inBounds ⟨0, 1, 2, 3⟩ (by simp [unitTetIndices])), if_neg hr]
    have e0 : vertexOf (flatVertices : List (Vec3 ℝ)) 0 = ⟨0, 0, 0⟩ := by
      simp [vertexOf, flatVertices]
    have e1 : vertexOf (flatVertices : List (Vec3 ℝ)) 1 = ⟨1, 0, 0⟩ := by
      simp [vertexOf, flatVertices]
    have e2 : vertexOf (flatVertices : List (Vec3 ℝ)) 2 = ⟨2, 0, 0⟩ := by
      simp [vertexOf, flatVertices]
    have e3 : vertexOf (flatVertices : List (Vec3 ℝ)) 3 = ⟨3, 0, 0⟩ := by
      simp [vertexOf, flatVertices]
    rw [e0, e1, e2, e3]
    simp only [updateMaxEdge, length, dot, Vec3.sub]
    norm_num [h9, h4]

/-! ## Degenerate tetrahedra leave the face graph alone -/

theorem sameGraph_refl {α : Type} (s : SharedFacesBuilder α) : SameGraph s s :=
  ⟨rfl, rfl, rfl, rfl⟩

theorem sameOutcome_refl {α : Type} (r : Except Fault (SharedFacesBuilder α)) :
    SameOutcome r r := by
  cases r with
  | ok s => exact sameGraph_refl s
  | error e => exact rfl

section Frame

variable {α : Type} [LinearOrderedCommRing α]

end Frame

section Slots

variable {α : Type} [LinearOrderedCommRing α]

/-- What a slot side of the state after `n` iterations holds: `-1` when no tetrahedron among the
first `n` writes there, otherwise the position of the latest one that does. -/
theorem slot_side_cases (sqrt : α → α) (vertices : List (Vec3 α)) (indices : List Vec4i)
    (hb : ∀ index ∈ indices, index.hasRepeat ∨ index.inBounds vertices.length) (n : Nat) :
    ∃ s, loopState sqrt vertices indices n = .ok s ∧
      Tracks s (allCalls vertices indices n) ∧
      ∀ (faceID : Nat) (f : Vec3i) (info : FaceInfo), s.faceIndices[faceID]? = some f →
        s.faceInfos[faceID]? = some info → ∀ b : Bool,
        (info.side b = -1 ∧
          ∀ t index, t < n → indices[t]? = some index → ¬ emitsTo vertices index (faceKey f) b) ∨
        (∃ t index, t < n ∧ indices[t]? = some index ∧ emitsTo vertices index (faceKey f) b ∧
          info.side b = t ∧
          ∀ t' index', t < t' → t' < n → indices[t']? = some index' →
            ¬ emitsTo vertices index' (faceKey f) b) := by
  obtain ⟨s, hs, ht, _, _⟩ := loopState_tracks sqrt vertices indices hb n
  refine ⟨s, hs, ht, fun faceID f info hf hi b => ?_⟩
  rw [ht.side faceID f info hf hi b]
  exact lastWriter_allCalls vertices indices (faceKey f) b (-1) n

end Slots

section LastWrite

variable {α : Type} [LinearOrderedCommRing α]

theorem mem_allCalls (vertices : List (Vec3 α)) (indices : List Vec4i) (n t : Nat)
    (index : Vec4i) (face : Vec3i) (ht : t < n) (hi : indices[t]? = some index)
    (hf : face ∈ emittedFaces vertices index) :
    ((t : Int), face) ∈ allCalls vertices indices n := by
  induction n with
  | zero => exact absurd ht (Nat.not_lt_zero t)
  | succ n ih =>
    simp only [allCalls, List.mem_append]
    rcases Nat.lt_succ_iff_lt_or_eq.mp ht with h | h
    · exact Or.inl (ih h)
    · subst h
      right
      rw [hi]
      exact List.mem_map.mpr ⟨face, hf, rfl⟩

theorem emitsTo_of_emitsFace {vertices : List (Vec3 α)} {index : Vec4i} {g : Vec3i} {b : Bool}
    (h : emitsFace vertices index g b) : emitsTo vertices index (faceKey g) b := by
  obtain ⟨face, hf, hc⟩ := h
  exact ⟨face, hf, by rw [hc], by rw [hc]⟩

/-- The slot of a key to which some tetrahedron writes exists in the final state, and the written
side holds the latest tetrahedron that writes there. -/
theorem slot_of_emitsTo (sqrt : α → α) (vertices : List (Vec3 α)) (indices : List Vec4i)
    (hb : ∀ index ∈ indices, index.hasRepeat ∨ index.inBounds vertices.length) :
    ∃ s, SharedFacesBuilder.SharedFacesBuilder sqrt vertices indices = .ok s ∧
      Tracks s (allCalls vertices indices indices.length) ∧
      ∀ (j : Nat) (tj : Vec4i) (K : Nat) (b : Bool), indices[j]? = some tj →
        emitsTo vertices tj K b →
        ∃ (faceID : Nat) (f : Vec3i) (info : FaceInfo) (m : Nat) (tm : Vec4i),
          s.knownFaces.lookup K = some faceID ∧
          s.faceIndices[faceID]? = some f ∧ faceKey f = K ∧
          s.faceInfos[faceID]? = some info ∧ info.side b = m ∧ j ≤ m ∧
          indices[m]? = some tm ∧ emitsTo vertices tm K b ∧
          ∀ m' tm', m < m' → indices[m']? = some tm' → ¬ emitsTo vertices tm' K b := by
  obtain ⟨s, hs, ht, hside⟩ := slot_side_cases sqrt vertices indices hb indices.length
  refine ⟨s, hs, ht, fun j tj K b hj hem => ?_⟩
  have hjlt : j < indices.length := lt_length_of_getElem? hj
  obtain ⟨face, hface, hkey, hfl⟩ := hem
  have hcall := mem_allCalls vertices indices indices.length j tj face hjlt hj hface
  have hknown : s.knownFaces.lookup K ≠ none := by
    intro hnone
    exact (ht.known K).mp hnone _ hcall hkey
  obtain ⟨faceID, hl⟩ := Option.ne_none_iff_exists'.mp hknown
  obtain ⟨f, hf, hfk⟩ := ht.sound K faceID hl
  have hlt : faceID < s.faceInfos.length := by
    rw [ht.len_eq]; exact lt_length_of_getElem? hf
  have hi : s.faceInfos[faceID]? = some (s.faceInfos[faceID]) := List.getElem?_eq_getElem hlt
  have hem : emitsTo vertices tj K b := ⟨face, hface, hkey, hfl⟩
  rcases hside faceID f _ hf hi b with ⟨_, hnone⟩ | ⟨m, tm, hm, htm, hemm, hval, hlater⟩
  · exact absurd (hfk ▸ hem) (hnone j tj hjlt hj)
  · refine ⟨faceID, f, _, m, tm, hl, hf, hfk, hi, hval, ?_, htm, hfk ▸ hemm, ?_⟩
    · by_contra hlt'
      exact hlater j tj (by omega) hjlt hj (hfk ▸ hem)
    · intro m' tm' h1 h2 h3
      exact hlater m' tm' h1 (lt_length_of_getElem? h2) h2 (hfk ▸ h3)

/-- C8. Last write wins. A call of `add` for a key that is already in the table raises no error,
adds no face slot and changes only the addressed side of the addressed slot. And in the builder
returned by the constructor: when two tetrahedra `i < j` are both assigned to side `b` of the same
canonical face `g`, that side of the slot of `g` holds a tetrahedron `m ≥ j` that is assigned to
it, namely the latest one: no tetrahedron after `m` is assigned to it. -/
theorem last_write_wins (sqrt : α → α) (vertices : List (Vec3 α)) (indices : List Vec4i)
    (hb : ∀ index ∈ indices, index.hasRepeat ∨ index.inBounds vertices.length) :
    (∀ (s : SharedFacesBuilder α) (tetID : Int) (face : Vec3i) (faceID : Nat) (info : FaceInfo),
      ((canonicalize face).1.x < (canonicalize face).1.y ∧
        (canonicalize face).1.x < (canonicalize face).1.z) →
      s.knownFaces.lookup (faceKey (canonicalize face).1) = some faceID →
      s.faceInfos[faceID]? = some info →
      s.add tetID face = .ok { s with
        faceInfos := s.faceInfos.set faceID (info.assign (canonicalize face).2 tetID) }) ∧
    (∀ (info : FaceInfo) (b : Bool) (tetID : Int),
      (info.assign b tetID).side b = tetID ∧ (info.assign b tetID).side (!b) = info.side (!b)) ∧
    ∃ s, SharedFacesBuilder.SharedFacesBuilder sqrt vertices indices = .ok s ∧
      ∀ (i j : Nat) (ti tj : Vec4i) (g : Vec3i) (b : Bool), i < j →
        indices[i]? = some ti → indices[j]? = some tj →
        emitsFace vertices ti g b → emitsFace vertices tj g b →
        ∃ (faceID : Nat) (f : Vec3i) (info : FaceInfo) (m : Nat) (tm : Vec4i),
          s.knownFaces.lookup (faceKey g) = some faceID ∧
          s.faceIndices[faceID]? = some f ∧ faceKey f = faceKey g ∧
          s.faceInfos[faceID]? = some info ∧ info.side b = m ∧ j ≤ m ∧
          indices[m]? = some tm ∧ emitsTo vertices tm (faceKey g) b ∧
          ∀ m' tm', m < m' → indices[m']? = some tm' →
            ¬ emitsTo vertices tm' (faceKey g) b := by
  refine ⟨?_, ?_, ?_⟩
  · intro s tetID face faceID info hassert hl hi
    exact add_of_known s tetID face hassert hl hi
  · intro info b tetID
    cases b <;> simp [FaceInfo.assign, FaceInfo.side]
  · obtain ⟨s, hs, _, hslot⟩ := slot_of_emitsTo sqrt vertices indices hb
    exact ⟨s, hs, fun i j ti tj g b _ _ hj _ hej => hslot j tj (faceKey g) b hj (emitsTo_of_emitsFace hej)⟩

end LastWrite

/-! ## Exact deduplication within the bit budget -/

theorem firstSightings_append (l : List Vec3i) (f : Vec3i) :
    firstSightings (l ++ [f]) =
      if f ∈ firstSightings l then firstSightings l else firstSightings l ++ [f] := by
  simp [firstSightings, List.foldl_append]

theorem mem_firstSightings (l : List Vec3i) (g : Vec3i) : g ∈ firstSightings l ↔ g ∈ l := by
  induction l using List.reverseRecOn with
  | nil => simp [firstSightings]
  | append_singleton l f ih =>
    rw [firstSightings_append]
    split_ifs with h
    · constructor
      · intro hg; exact List.mem_append_left _ (ih.mp hg)
      · intro hg
        rcases List.mem_append.mp hg with h1 | h1
        · exact ih.mpr h1
        · simp at h1; subst h1; exact h
    · simp [List.mem_append, ih]

theorem nodup_firstSightings (l : List Vec3i) : (firstSightings l).Nodup := by
  induction l using List.reverseRecOn with
  | nil => simp [firstSightings]
  | append_singleton l f ih =>
    rw [firstSightings_append]
    split_ifs with h
    · exact ih
    · rw [List.nodup_append]
      exact ⟨ih, List.nodup_singleton f, by
        intro a ha hb; simp at hb; subst hb; exact h ha⟩

theorem canonicalize_has (f : Vec3i) (i : Int) : (canonicalize f).1.has i ↔ f.has i := by
  obtain ⟨a, b, c⟩ := f
  by_cases h1 : a > c <;> by_cases h2 : b > c <;> by_cases h3 : a > b <;>
    by_cases h4 : b > a <;> by_cases h5 : c > b <;> by_cases h6 : c > a <;>
    simp [canonicalize, Vec3i.has, h1, h2, h3, h4, h5, h6] <;> omega

theorem canonicalize_distinct_lt (f : Vec3i) (h : f.distinct) :
    (canonicalize f).1.x < (canonicalize f).1.y ∧ (canonicalize f).1.y < (canonicalize f).1.z := by
  obtain ⟨a, b, c⟩ := f
  exact canonicalize_lt a b c h.1 h.2.1 h.2.2

theorem canonicalize_inBudget (f : Vec3i) (h : f.inBudget) : (canonicalize f).1.inBudget := by
  obtain ⟨hx, hy, hz⟩ := canonicalize_mem f
  obtain ⟨⟨a0, a1⟩, ⟨b0, b1⟩, ⟨c0, c1⟩⟩ := h
  refine ⟨?_, ?_, ?_⟩
  · rcases hx with e | e | e <;> rw [e] <;> constructor <;> assumption
  · rcases hy with e | e | e <;> rw [e] <;> constructor <;> assumption
  · rcases hz with e | e | e <;> rw [e] <;> constructor <;> assumption

/-- Two strictly ascending faces with the same corner set are equal. -/
theorem eq_of_sorted_of_same_set (f g : Vec3i) (hf : f.x < f.y ∧ f.y < f.z)
    (hg : g.x < g.y ∧ g.y < g.z) (h : ∀ i, f.has i ↔ g.has i) : f = g := by
  obtain ⟨a, b, c⟩ := f
  obtain ⟨p, q, r⟩ := g
  simp only [Vec3i.has] at h
  simp only at hf hg
  have h1 := h a
  have h2 := h b
  have h3 := h c
  have h4 := h p
  have h5 := h q
  have h6 := h r
  have : a = p ∧ b = q ∧ c = r := by omega
  simp [this]

/-- Faces with pairwise-distinct corners have the same canonical face exactly when they have the
same corner set. -/
theorem canonicalize_eq_iff_same_set (f g : Vec3i) (hf : f.distinct) (hg : g.distinct) :
    (canonicalize f).1 = (canonicalize g).1 ↔ ∀ i, f.has i ↔ g.has i := by
  constructor
  · intro h i
    rw [← canonicalize_has f i, ← canonicalize_has g i, h]
  · intro h
    apply eq_of_sorted_of_same_set _ _ (canonicalize_distinct_lt f hf)
      (canonicalize_distinct_lt g hg)
    intro i
    rw [canonicalize_has, canonicalize_has]
    exact h i

section Dedup

variable {α : Type} [LinearOrderedCommRing α]

theorem tetFaces_has (index : Vec4i) (face : Vec3i) (hf : face ∈ tetFaces index) :
    (face.x = index.x ∨ face.x = index.y ∨ face.x = index.z ∨ face.x = index.w) ∧
    (face.y = index.x ∨ face.y = index.y ∨ face.y = index.z ∨ face.y = index.w) ∧
    (face.z = index.x ∨ face.z = index.y ∨ face.z = index.z ∨ face.z = index.w) := by
  simp only [tetFaces, List.mem_cons, List.mem_singleton, List.not_mem_nil, or_false] at hf
  rcases hf with rfl | rfl | rfl | rfl <;> simp

theorem emittedFaces_has (vertices : List (Vec3 α)) (index : Vec4i) (face : Vec3i)
    (hf : face ∈ emittedFaces vertices index) :
    (face.x = index.x ∨ face.x = index.y ∨ face.x = index.z ∨ face.x = index.w) ∧
    (face.y = index.x ∨ face.y = index.y ∨ face.y = index.z ∨ face.y = index.w) ∧
    (face.z = index.x ∨ face.z = index.y ∨ face.z = index.z ∨ face.z = index.w) := by
  unfold emittedFaces at hf
  split_ifs at hf with hr
  · cases hf
  · split at hf
    · split_ifs at hf with hv
      · cases hf
      · have h := tetFaces_has _ face hf
        unfold orientIndex at h
        split_ifs at h
        · simp only at h
          obtain ⟨h1, h2, h3⟩ := h
          refine ⟨?_, ?_, ?_⟩
          · rcases h1 with e | e | e | e <;> simp [e]
          · rcases h2 with e | e | e | e <;> simp [e]
          · rcases h3 with e | e | e | e <;> simp [e]
        · exact h
    · cases hf

theorem emittedFaces_inBudget (vertices : List (Vec3 α)) (index : Vec4i) (hbud : index.inBudget)
    (face : Vec3i) (hf : face ∈ emittedFaces vertices index) : face.inBudget := by
  obtain ⟨hx, hy, hz⟩ := emittedFaces_has vertices index face hf
  obtain ⟨a, b, c, d⟩ := hbud
  refine ⟨?_, ?_, ?_⟩
  · rcases hx with e | e | e | e <;> rw [e] <;> assumption
  · rcases hy with e | e | e | e <;> rw [e] <;> assumption
  · rcases hz with e | e | e | e <;> rw [e] <;> assumption

theorem allCalls_inBudget (vertices : List (Vec3 α)) (indices : List Vec4i)
    (hbud : ∀ index ∈ indices, index.inBudget) (n : Nat) :
    ∀ c ∈ allCalls vertices indices n, c.face.inBudget := by
  induction n with
  | zero => intro c hc; cases hc
  | succ n ih =>
    intro c hc
    simp only [allCalls, List.mem_append] at hc
    rcases hc with hc | hc
    · exact ih c hc
    · cases hi : indices[n]? with
      | none => rw [hi] at hc; cases hc
      | some index =>
        rw [hi] at hc
        obtain ⟨f, hf, rfl⟩ := List.mem_map.mp hc
        exact canonicalize_inBudget f (emittedFaces_inBudget vertices index
          (hbud index (List.mem_iff_getElem?.mpr ⟨n, hi⟩)) f hf)

end Dedup

theorem mem_sightingsByKey (H : List Call) (g : Vec3i) (hg : g ∈ sightingsByKey H) :
    ∃ c ∈ H, c.face = g := by
  induction H using List.reverseRecOn with
  | nil => simp [sightingsByKey] at hg
  | append_singleton H c ih =>
    rw [sightingsByKey_append] at hg
    split_ifs at hg with h
    · obtain ⟨c', hc', e⟩ := ih hg
      exact ⟨c', List.mem_append_left _ hc', e⟩
    · rcases List.mem_append.mp hg with h1 | h1
      · obtain ⟨c', hc', e⟩ := ih h1
        exact ⟨c', List.mem_append_left _ hc', e⟩
      · simp at h1; exact ⟨c, by simp, h1.symm⟩

/-- When all canonical faces are within the bit budget, first sighting by key is first sighting by
face. -/
theorem sightingsByKey_eq_firstSightings (H : List Call) (hbud : ∀ c ∈ H, c.face.inBudget) :
    sightingsByKey H = firstSightings (H.map Call.face) := by
  induction H using List.reverseRecOn with
  | nil => simp [sightingsByKey, firstSightings]
  | append_singleton H c ih =>
    have ih' := ih (fun c' hc' => hbud c' (List.mem_append_left _ hc'))
    rw [sightingsByKey_append, List.map_append, List.map_singleton, firstSightings_append, ← ih']
    have hiff : (sightingsByKey H).any (fun g => faceKey g == c.key) = true ↔
        c.face ∈ sightingsByKey H := by
      rw [List.any_eq_true]
      constructor
      · rintro ⟨g, hg, hk⟩
        obtain ⟨c', hc', e⟩ := mem_sightingsByKey H g hg
        have hgb : g.inBudget := e ▸ hbud c' (List.mem_append_left _ hc')
        have : g = c.face :=
          faceKey_injective_of_inBudget g c.face hgb (hbud c (by simp)) (by simpa using hk)
        rw [← this]; exact hg
      · intro hmem
        exact ⟨c.face, hmem, by simp [Call.key]⟩
    by_cases hm : c.face ∈ sightingsByKey H
    · rw [if_pos (hiff.mpr hm), if_pos hm]
    · rw [if_neg (fun h => hm (hiff.mp h)), if_neg hm]

theorem tetFaces_distinct (index : Vec4i) (h : ¬ index.hasRepeat) :
    ∀ face ∈ tetFaces index, face.distinct := by
  unfold Vec4i.hasRepeat at h
  push_neg at h
  obtain ⟨h1, h2, h3, h4, h5, h6⟩ := h
  intro face hf
  simp only [tetFaces, List.mem_cons, List.mem_singleton, List.not_mem_nil, or_false] at hf
  rcases hf with rfl | rfl | rfl | rfl
  · exact ⟨h1, h2, h4⟩
  · exact ⟨h5, h4, Ne.symm h6⟩
  · exact ⟨h3, h1, Ne.symm h5⟩
  · exact ⟨h6, Ne.symm h2, Ne.symm h3⟩

section DedupMain

variable {α : Type} [LinearOrderedCommRing α]

theorem emittedFaces_distinct (vertices : List (Vec3 α)) (index : Vec4i) :
    ∀ face ∈ emittedFaces vertices index, face.distinct := by
  intro face hf
  unfold emittedFaces at hf
  split_ifs at hf with hr
  · cases hf
  · split at hf
    · split_ifs at hf with hv
      · cases hf
      · exact tetFaces_distinct _ (fun h => hr ((orientIndex_hasRepeat _ _).mp h)) face hf
    · cases hf

theorem allCalls_sorted (vertices : List (Vec3 α)) (indices : List Vec4i) (n : Nat) :
    ∀ c ∈ allCalls vertices indices n, c.face.x < c.face.y ∧ c.face.y < c.face.z := by
  induction n with
  | zero => intro c hc; cases hc
  | succ n ih =>
    intro c hc
    simp only [allCalls, List.mem_append] at hc
    rcases hc with hc | hc
    · exact ih c hc
    · cases hi : indices[n]? with
      | none => rw [hi] at hc; cases hc
      | some index =>
        rw [hi] at hc
        obtain ⟨f, hf, rfl⟩ := List.mem_map.mp hc
        exact canonicalize_distinct_lt f (emittedFaces_distinct vertices index f hf)

/-- C9. Deduplication is exact within the bit budget. For faces with pairwise-distinct indices
in `[0, 2^20)` two `add` calls compute the same key exactly when the faces have the same corner
set. Hence, for an in-bounds mesh whose indices all lie in `[0, 2^20)`, the stored face list is
the list of first sightings of the canonical faces handed to `add`, in call order: it has no
duplicate, holds exactly the canonical faces that occurred, each in ascending order, and
`faceInfos` has the same length. A call of `add` for a key that is not in the table appends one
slot, which starts as `{-1, -1}` and receives the id on the side given by the flag. -/
theorem dedup_exact (sqrt : α → α) (vertices : List (Vec3 α)) (indices : List Vec4i)
    (hb : InBounds vertices indices) (hbud : ∀ index ∈ indices, index.inBudget) :
    (∀ f g : Vec3i, f.distinct → g.distinct → f.inBudget → g.inBudget →
      (faceKey (canonicalize f).1 = faceKey (canonicalize g).1 ↔ ∀ i, f.has i ↔ g.has i)) ∧
    (∃ s, SharedFacesBuilder.SharedFacesBuilder sqrt vertices indices = .ok s ∧
      s.faceIndices =
        firstSightings ((allCalls vertices indices indices.length).map Call.face) ∧
      s.faceIndices.Nodup ∧
      (∀ g, g ∈ s.faceIndices ↔ ∃ c ∈ allCalls vertices indices indices.length, c.face = g) ∧
      (∀ g ∈ s.faceIndices, g.x < g.y ∧ g.y < g.z) ∧
      s.faceInfos.length = s.faceIndices.length) ∧
    (∀ (s : SharedFacesBuilder α) (tetID : Int) (face : Vec3i),
      ((canonicalize face).1.x < (canonicalize face).1.y ∧
        (canonicalize face).1.x < (canonicalize face).1.z) →
      s.knownFaces.lookup (faceKey (canonicalize face).1) = none →
      s.faceInfos.length = s.faceIndices.length →
      s.add tetID face = .ok { s with
        faceIndices := s.faceIndices ++ [(canonicalize face).1]
        faceInfos := s.faceInfos ++ [(⟨-1, -1⟩ : FaceInfo).assign (canonicalize face).2 tetID]
        knownFaces := (faceKey (canonicalize face).1, s.faceIndices.length) :: s.knownFaces }) := by
  refine ⟨?_, ?_, ?_⟩
  · intro f g hf hg hfb hgb
    rw [← canonicalize_eq_iff_same_set f g hf hg]
    constructor
    · exact faceKey_injective_of_inBudget _ _ (canonicalize_inBudget f hfb)
        (canonicalize_inBudget g hgb)
    · intro h; rw [h]
  · obtain ⟨s, hs, ht, _, _⟩ :=
      loopState_tracks sqrt vertices indices (inBounds_or vertices indices hb) indices.length
    have hfaces : s.faceIndices =
        firstSightings ((allCalls vertices indices indices.length).map Call.face) := by
      rw [ht.faces]
      exact sightingsByKey_eq_firstSightings _ (allCalls_inBudget vertices indices hbud _)
    have hmem : ∀ g, g ∈ s.faceIndices ↔
        ∃ c ∈ allCalls vertices indices indices.length, c.face = g := by
      intro g
      rw [hfaces, mem_firstSightings, List.mem_map]
    refine ⟨s, hs, hfaces, ?_, hmem, ?_, ht.len_eq⟩
    · rw [hfaces]; exact nodup_firstSightings _
    · intro g hg
      obtain ⟨c, hc, e⟩ := (hmem g).mp hg
      rw [← e]
      exact allCalls_sorted vertices indices _ c hc
  · intro s tetID face hassert hl hlen
    exact add_of_unknown s tetID face hassert hl hlen

end DedupMain

theorem unitTet_inBudget : ∀ index ∈ unitTetIndices, index.inBudget := by
  intro index h
  simp only [unitTetIndices, List.mem_singleton] at h
  subst h
  decide

/-- C9 at the unit tetrahedron over the reals. -/
theorem dedup_exact_witness :
    InBounds (unitTetVertices : List (Vec3 ℝ)) unitTetIndices ∧
    (∀ index ∈ unitTetIndices, index.inBudget) ∧
    ∃ s, SharedFacesBuilder.SharedFacesBuilder Real.sqrt (unitTetVertices : List (Vec3 ℝ))
        unitTetIndices = .ok s ∧
      s.faceIndices = firstSightings
        ((allCalls (unitTetVertices : List (Vec3 ℝ)) unitTetIndices unitTetIndices.length).map
          Call.face) ∧
      s.faceIndices.Nodup :=
  ⟨unitTet_inBounds, unitTet_inBudget,
    (dedup_exact Real.sqrt unitTetVertices unitTetIndices unitTet_inBounds
      unitTet_inBudget).2.1.imp (fun _ h => ⟨h.1, h.2.1, h.2.2.1⟩)⟩

/-- The unit tetrahedron listed twice. -/
theorem twice_readable : ∀ index ∈ ([⟨0, 1, 2, 3⟩, ⟨0, 1, 2, 3⟩] : List Vec4i),
    index.hasRepeat ∨ index.inBounds (unitTetVertices : List (Vec3 ℝ)).length := by
  intro index h
  simp only [List.mem_cons, List.mem_singleton, List.not_mem_nil, or_false, or_self] at h
  subst h
  exact Or.inr (unitTet_inBounds _ (by simp [unitTetIndices]))

theorem unitTet_emitsFace :
    emitsFace (unitTetVertices : List (Vec3 ℝ)) ⟨0, 1, 2, 3⟩ ⟨0, 1, 2⟩ true :=
  ⟨⟨0, 1, 2⟩, by rw [unitTet_emittedFaces]; simp [tetFaces], by decide⟩

/-- C8 at the unit tetrahedron listed twice, over the reals: both copies are assigned to the
front of the face `(0,1,2)`, and the slot ends with the second copy, tetrahedron `1`. -/
theorem last_write_wins_witness :
    (∀ index ∈ ([⟨0, 1, 2, 3⟩, ⟨0, 1, 2, 3⟩] : List Vec4i),
      index.hasRepeat ∨ index.inBounds (unitTetVertices : List (Vec3 ℝ)).length) ∧
    ∃ s, SharedFacesBuilder.SharedFacesBuilder Real.sqrt (unitTetVertices : List (Vec3 ℝ))
        [⟨0, 1, 2, 3⟩, ⟨0, 1, 2, 3⟩] = .ok s ∧
      ∃ (faceID : Nat) (info : FaceInfo),
        s.knownFaces.lookup (faceKey ⟨0, 1, 2⟩) = some faceID ∧
        s.faceInfos[faceID]? = some info ∧ info.side true = 1 := by
  refine ⟨twice_readable, ?_⟩
  obtain ⟨s, hs, h⟩ := (last_write_wins Real.sqrt (unitTetVertices : List (Vec3 ℝ))
    [⟨0, 1, 2, 3⟩, ⟨0, 1, 2, 3⟩] twice_readable).2.2
  obtain ⟨faceID, f, info, m, tm, hl, _, _, hi, hval, hjm, hm, _, _⟩ :=
    h 0 1 ⟨0, 1, 2, 3⟩ ⟨0, 1, 2, 3⟩ ⟨0, 1, 2⟩ true (by decide) rfl rfl unitTet_emitsFace
      unitTet_emitsFace
  have hlt : m < 2 := lt_length_of_getElem? hm
  have hm1 : m = 1 := by omega
  subst hm1
  exact ⟨s, hs, faceID, info, hl, hi, by simpa using hval⟩

/-! ## Orientation of the emitted faces -/

section Orientation

variable {α : Type} [LinearOrderedCommRing α]

theorem signedVolume_swap_xy (A B C D : Vec3 α) :
    signedVolume B A C D = - signedVolume A B C D := by
  simp only [signedVolume, dot, cross, Vec3.sub]; ring

theorem signedVolume_swap_yz (A B C D : Vec3 α) :
    signedVolume A C B D = - signedVolume A B C D := by
  simp only [signedVolume, dot, cross, Vec3.sub]; ring

theorem signedVolume_swap_xz (A B C D : Vec3 α) :
    signedVolume C B A D = - signedVolume A B C D := by
  simp only [signedVolume, dot, cross, Vec3.sub]; ring

theorem signedVolume_rotate (A B C D : Vec3 α) :
    signedVolume B C A D = signedVolume A B C D := by
  simp only [signedVolume, dot, cross, Vec3.sub]; ring

theorem signedVolume_rotate' (A B C D : Vec3 α) :
    signedVolume C A B D = signedVolume A B C D := by
  simp only [signedVolume, dot, cross, Vec3.sub]; ring

theorem signedVolume_face2 (A B C D : Vec3 α) :
    signedVolume B D C A = signedVolume A B C D := by
  simp only [signedVolume, dot, cross, Vec3.sub]; ring

theorem signedVolume_face3 (A B C D : Vec3 α) :
    signedVolume A D B C = signedVolume A B C D := by
  simp only [signedVolume, dot, cross, Vec3.sub]; ring

theorem signedVolume_face4 (A B C D : Vec3 α) :
    signedVolume C D A B = signedVolume A B C D := by
  simp only [signedVolume, dot, cross, Vec3.sub]; ring

/-- The orientation determinant of the canonical face against a point is the one of the face as
given when `front` is true, and its opposite when `front` is false. -/
theorem signedVolume_canonicalize (P : Int → Vec3 α) (a b c : Int) (hab : a ≠ b) (hac : a ≠ c)
    (hbc : b ≠ c) (D : Vec3 α) :
    signedVolume (P (canonicalize ⟨a, b, c⟩).1.x) (P (canonicalize ⟨a, b, c⟩).1.y)
        (P (canonicalize ⟨a, b, c⟩).1.z) D =
      if (canonicalize ⟨a, b, c⟩).2 then signedVolume (P a) (P b) (P c) D
      else - signedVolume (P a) (P b) (P c) D := by
  rcases lt_or_gt_of_ne hab with h1 | h1 <;> rcases lt_or_gt_of_ne hac with h2 | h2 <;>
    rcases lt_or_gt_of_ne hbc with h3 | h3
  · rw [(canonicalize_sorted_perm a b c h1 h3).1]; simp
  · rw [(canonicalize_sorted_perm a c b h2 h3).2.2.2.1]
    simp [signedVolume_swap_yz (P a) (P b) (P c) D]
  · omega
  · rw [(canonicalize_sorted_perm c a b h2 h1).2.1]
    simp [signedVolume_rotate' (P a) (P b) (P c) D]
  · rw [(canonicalize_sorted_perm b a c h1 h2).2.2.2.2.2]
    simp [signedVolume_swap_xy (P a) (P b) (P c) D]
  · omega
  · rw [(canonicalize_sorted_perm b c a h3 h2).2.2.1]
    simp [signedVolume_rotate (P a) (P b) (P c) D]
  · rw [(canonicalize_sorted_perm c b a h3 h1).2.2.2.2.1]
    simp [signedVolume_swap_xz (P a) (P b) (P c) D]

end Orientation

theorem fourthVertex_eq (index : Vec4i) (g : Vec3i) (d : Int) (hd : index.has d)
    (hnd : ¬ g.has d) (hall : ∀ i, index.has i → g.has i ∨ i = d) :
    fourthVertex index g = d := by
  unfold fourthVertex
  have hx := hall index.x (Or.inl rfl)
  have hy := hall index.y (Or.inr (Or.inl rfl))
  have hz := hall index.z (Or.inr (Or.inr (Or.inl rfl)))
  by_cases h1 : g.has index.x
  · by_cases h2 : g.has index.y
    · by_cases h3 : g.has index.z
      · simp only [h1, h2, h3, not_true_eq_false, if_false]
        rcases hd with e | e | e | e
        · exact absurd (e ▸ h1) hnd
        · exact absurd (e ▸ h2) hnd
        · exact absurd (e ▸ h3) hnd
        · exact e.symm
      · simp only [h1, h2, h3, not_true_eq_false, not_false_eq_true, if_false, if_true]
        exact hz.resolve_left h3
    · simp only [h1, h2, not_true_eq_false, not_false_eq_true, if_false, if_true]
      exact hy.resolve_left h2
  · simp only [h1, not_false_eq_true, if_true]
    exact hx.resolve_left h1

section EmittedSides

variable {α : Type} [LinearOrderedCommRing α]

theorem orientIndex_has (volume : α) (index : Vec4i) (i : Int) :
    (orientIndex volume index).has i ↔ index.has i := by
  unfold orientIndex
  split_ifs
  · simp only [Vec4i.has]
    constructor <;> (intro h; rcases h with h | h | h | h <;> simp [h])
  · rfl

theorem tetVolume_orientIndex_pos (vertices : List (Vec3 α)) (index : Vec4i)
    (hv : tetVolume vertices index ≠ 0) :
    0 < tetVolume vertices (orientIndex (tetVolume vertices index) index) := by
  unfold orientIndex
  split_ifs with h
  · simp only [tetVolume]
    rw [signedVolume_swap_xy]
    exact neg_pos.mpr h
  · exact lt_of_le_of_ne (not_lt.mp h) (Ne.symm hv)

/-- Each face handed to `add` for the oriented tetrahedron `o` leaves out exactly one corner `d`
of `o`, and `d` lies on the positive side of the face as given. -/
theorem tetFaces_opposite (P : Int → Vec3 α) (o : Vec4i) (hr : ¬ o.hasRepeat) (face : Vec3i)
    (hf : face ∈ tetFaces o) :
    ∃ d, o.has d ∧ ¬ face.has d ∧ (∀ i, o.has i ↔ (face.has i ∨ i = d)) ∧
      signedVolume (P face.x) (P face.y) (P face.z) (P d) =
        signedVolume (P o.x) (P o.y) (P o.z) (P o.w) := by
  unfold Vec4i.hasRepeat at hr
  push_neg at hr
  obtain ⟨h1, h2, h3, h4, h5, h6⟩ := hr
  simp only [tetFaces, List.mem_cons, List.mem_singleton, List.not_mem_nil, or_false] at hf
  rcases hf with rfl | rfl | rfl | rfl
  · refine ⟨o.w, by simp [Vec4i.has], ?_, ?_, rfl⟩
    · simp only [Vec3i.has]; omega
    · intro i; simp only [Vec4i.has, Vec3i.has]; omega
  · refine ⟨o.x, by simp [Vec4i.has], ?_, ?_, signedVolume_face2 _ _ _ _⟩
    · simp only [Vec3i.has]; omega
    · intro i; simp only [Vec4i.has, Vec3i.has]; omega
  · refine ⟨o.z, by simp [Vec4i.has], ?_, ?_, signedVolume_face3 _ _ _ _⟩
    · simp only [Vec3i.has]; omega
    · intro i; simp only [Vec4i.has, Vec3i.has]; omega
  · refine ⟨o.y, by simp [Vec4i.has], ?_, ?_, signedVolume_face4 _ _ _ _⟩
    · simp only [Vec3i.has]; omega
    · intro i; simp only [Vec4i.has, Vec3i.has]; omega

/-- A face handed to `add` by a non-degenerate tetrahedron: its canonical face is a triangle of
the tetrahedron, and `front` tells on which side of that triangle the fourth vertex lies. -/
theorem emitted_side (vertices : List (Vec3 α)) (index : Vec4i)
    (hb : index.inBounds vertices.length) (hnd : NonDegenerate vertices index) (face : Vec3i)
    (hf : face ∈ emittedFaces vertices index) :
    index.hasTriangle (canonicalize face).1 ∧
    ((canonicalize face).2 = true →
      0 < planeSide vertices (canonicalize face).1 (fourthVertex index (canonicalize face).1)) ∧
    ((canonicalize face).2 = false →
      planeSide vertices (canonicalize face).1 (fourthVertex index (canonicalize face).1) < 0) := by
  obtain ⟨hr, hv⟩ := hnd
  rw [emittedFaces_of_inBounds vertices index hb, if_neg hr, if_neg hv] at hf
  have hro : ¬ (orientIndex (tetVolume vertices index) index).hasRepeat :=
    fun h => hr ((orientIndex_hasRepeat _ _).mp h)
  obtain ⟨d, hd, hnd', hall, hvol⟩ := tetFaces_opposite (vertexOf vertices) _ hro face hf
  have hpos := tetVolume_orientIndex_pos vertices index hv
  have hdist := tetFaces_distinct _ hro face hf
  have hd' : index.has d := (orientIndex_has _ _ _).mp hd
  have hall' : ∀ i, index.has i ↔ (face.has i ∨ i = d) :=
    fun i => (orientIndex_has _ _ _).symm.trans (hall i)
  have hfourth : fourthVertex index (canonicalize face).1 = d := by
    apply fourthVertex_eq index _ d hd'
    · rw [canonicalize_has]; exact hnd'
    · intro i hi
      rw [canonicalize_has]
      exact (hall' i).mp hi
  have htri : index.hasTriangle (canonicalize face).1 := by
    obtain ⟨mx, my, mz⟩ := canonicalize_mem face
    refine ⟨?_, ?_, ?_⟩
    · apply (hall' _).mpr; left
      rcases mx with e | e | e <;> rw [e] <;> simp [Vec3i.has]
    · apply (hall' _).mpr; left
      rcases my with e | e | e <;> rw [e] <;> simp [Vec3i.has]
    · apply (hall' _).mpr; left
      rcases mz with e | e | e <;> rw [e] <;> simp [Vec3i.has]
  have hcan := signedVolume_canonicalize (vertexOf vertices) face.x face.y face.z
    hdist.1 hdist.2.1 hdist.2.2 (vertexOf vertices d)
  have hposf : 0 < signedVolume (vertexOf vertices face.x) (vertexOf vertices face.y)
      (vertexOf vertices face.z) (vertexOf vertices d) := by
    rw [hvol]; exact hpos
  refine ⟨htri, ?_, ?_⟩
  · intro hfl
    rw [hfourth]
    unfold planeSide
    have : canonicalize face = canonicalize ⟨face.x, face.y, face.z⟩ := rfl
    rw [this, hcan, ← this, hfl]
    simpa using hposf
  · intro hfl
    rw [hfourth]
    unfold planeSide
    have : canonicalize face = canonicalize ⟨face.x, face.y, face.z⟩ := rfl
    rw [this, hcan, ← this, hfl]
    simpa using hposf

end EmittedSides

/-! ## Slots of the final face graph, within the bit budget -/

/-- A triangle of an oriented tetrahedron is the corner set of one of the four faces handed to
`add`. -/
theorem tetFaces_of_triangle (o : Vec4i) (hr : ¬ o.hasRepeat) (f : Vec3i)
    (hs : f.x < f.y ∧ f.y < f.z) (ht : o.hasTriangle f) :
    ∃ face ∈ tetFaces o, ∀ i, face.has i ↔ f.has i := by
  unfold Vec4i.hasRepeat at hr
  push_neg at hr
  obtain ⟨h1, h2, h3, h4, h5, h6⟩ := hr
  obtain ⟨tx, ty, tz⟩ := ht
  obtain ⟨s1, s2⟩ := hs
  simp only [Vec4i.has] at tx ty tz
  have key : ∀ (a b c d : Int), (f.x = a ∨ f.x = b ∨ f.x = c ∨ f.x = d) →
      (f.y = a ∨ f.y = b ∨ f.y = c ∨ f.y = d) → (f.z = a ∨ f.z = b ∨ f.z = c ∨ f.z = d) →
      ¬ (⟨f.x, f.y, f.z⟩ : Vec3i).has d → a ≠ b → a ≠ c → b ≠ c →
      ∀ i, (i = a ∨ i = b ∨ i = c) ↔ (⟨f.x, f.y, f.z⟩ : Vec3i).has i := by
    intro a b c d ex ey ez hd hab hac hbc i
    simp only [Vec3i.has] at hd ⊢
    push_neg at hd
    obtain ⟨d1, d2, d3⟩ := hd
    have ex' : f.x = a ∨ f.x = b ∨ f.x = c := by omega
    have ey' : f.y = a ∨ f.y = b ∨ f.y = c := by omega
    have ez' : f.z = a ∨ f.z = b ∨ f.z = c := by omega
    clear ex ey ez tx ty tz
    have ha : a = f.x ∨ a = f.y ∨ a = f.z := by omega
    have hb : b = f.x ∨ b = f.y ∨ b = f.z := by omega
    have hc : c = f.x ∨ c = f.y ∨ c = f.z := by omega
    constructor
    · rintro (e | e | e)
      · rw [e]; exact ha
      · rw [e]; exact hb
      · rw [e]; exact hc
    · rintro (e | e | e)
      · rw [e]; exact ex'
      · rw [e]; exact ey'
      · rw [e]; exact ez'
  have hff : ∀ i, (⟨f.x, f.y, f.z⟩ : Vec3i).has i ↔ f.has i := fun i => Iff.rfl
  have perm1 : ∀ v : Int, (v = o.x ∨ v = o.y ∨ v = o.z ∨ v = o.w) →
      (v = o.x ∨ v = o.w ∨ v = o.y ∨ v = o.z) := by
    intro v h; rcases h with e | e | e | e <;> simp [e]
  have perm2 : ∀ v : Int, (v = o.x ∨ v = o.y ∨ v = o.z ∨ v = o.w) →
      (v = o.z ∨ v = o.w ∨ v = o.x ∨ v = o.y) := by
    intro v h; rcases h with e | e | e | e <;> simp [e]
  have perm3 : ∀ v : Int, (v = o.x ∨ v = o.y ∨ v = o.z ∨ v = o.w) →
      (v = o.y ∨ v = o.w ∨ v = o.z ∨ v = o.x) := by
    intro v h; rcases h with e | e | e | e <;> simp [e]
  by_cases hw : f.has o.w
  · by_cases hx : f.has o.x
    · by_cases hy : f.has o.y
      · by_cases hz : f.has o.z
        · simp only [Vec3i.has] at hw hx hy hz
          clear tx ty tz key perm1 perm2 perm3
          omega
        · refine ⟨⟨o.x, o.w, o.y⟩, by simp [tetFaces], fun i => ?_⟩
          rw [← hff]
          exact key o.x o.w o.y o.z (perm1 _ tx) (perm1 _ ty) (perm1 _ tz) hz h3 h1 (Ne.symm h5) i
      · refine ⟨⟨o.z, o.w, o.x⟩, by simp [tetFaces], fun i => ?_⟩
        rw [← hff]
        exact key o.z o.w o.x o.y (perm2 _ tx) (perm2 _ ty) (perm2 _ tz) hy h6 (Ne.symm h2)
          (Ne.symm h3) i
    · refine ⟨⟨o.y, o.w, o.z⟩, by simp [tetFaces], fun i => ?_⟩
      rw [← hff]
      exact key o.y o.w o.z o.x (perm3 _ tx) (perm3 _ ty) (perm3 _ tz) hx h5 h4 (Ne.symm h6) i
  · refine ⟨⟨o.x, o.y, o.z⟩, by simp [tetFaces], fun i => ?_⟩
    rw [← hff]
    exact key o.x o.y o.z o.w tx ty tz hw h1 h2 h4 i

section FinalSlots

variable {α : Type} [LinearOrderedCommRing α]

/-- Every triangle of a non-degenerate tetrahedron is the canonical form of a face it hands to
`add`. -/
theorem emits_triangle (vertices : List (Vec3 α)) (index : Vec4i)
    (hb : index.inBounds vertices.length) (hnd : NonDegenerate vertices index) (f : Vec3i)
    (hs : f.x < f.y ∧ f.y < f.z) (ht : index.hasTriangle f) :
    ∃ face ∈ emittedFaces vertices index, (canonicalize face).1 = f := by
  obtain ⟨hr, hv⟩ := hnd
  rw [emittedFaces_of_inBounds vertices index hb, if_neg hr, if_neg hv]
  have hro : ¬ (orientIndex (tetVolume vertices index) index).hasRepeat :=
    fun h => hr ((orientIndex_hasRepeat _ _).mp h)
  have hto : (orientIndex (tetVolume vertices index) index).hasTriangle f :=
    ⟨(orientIndex_has _ _ _).mpr ht.1, (orientIndex_has _ _ _).mpr ht.2.1,
      (orientIndex_has _ _ _).mpr ht.2.2⟩
  obtain ⟨face, hf, hset⟩ := tetFaces_of_triangle _ hro f hs hto
  refine ⟨face, hf, ?_⟩
  have hfd : f.distinct := ⟨ne_of_lt hs.1, ne_of_lt (lt_trans hs.1 hs.2), ne_of_lt hs.2⟩
  have h1 := (canonicalize_eq_iff_same_set face f (tetFaces_distinct _ hro face hf) hfd).mpr hset
  rw [h1]
  have : canonicalize f = canonicalize ⟨f.x, f.y, f.z⟩ := rfl
  rw [this, (canonicalize_sorted_perm f.x f.y f.z hs.1 hs.2).1]

theorem emitsTo_iff_emitsFace (vertices : List (Vec3 α)) (index : Vec4i) (hbud : index.inBudget)
    (g : Vec3i) (hg : g.inBudget) (b : Bool) :
    emitsTo vertices index (faceKey g) b ↔ emitsFace vertices index g b := by
  constructor
  · rintro ⟨face, hf, hk, hfl⟩
    refine ⟨face, hf, ?_⟩
    have hfb := canonicalize_inBudget face (emittedFaces_inBudget vertices index hbud face hf)
    have := faceKey_injective_of_inBudget _ _ hfb hg hk
    exact Prod.ext this hfl
  · exact fun h => emitsTo_of_emitsFace h

/-- The final face graph of an in-bounds mesh within the bit budget, slot by slot: a slot side
holds `-1` when no tetrahedron is assigned to that side of the stored face, and otherwise the
latest tetrahedron assigned to it; and every face some tetrahedron is assigned to has a slot. -/
theorem final_slots (sqrt : α → α) (vertices : List (Vec3 α)) (indices : List Vec4i)
    (hb : InBounds vertices indices) (hbud : ∀ index ∈ indices, index.inBudget) :
    ∃ s, SharedFacesBuilder.SharedFacesBuilder sqrt vertices indices = .ok s ∧
      s.faceIndices.Nodup ∧ s.faceInfos.length = s.faceIndices.length ∧
      (∀ (faceID : Nat) (f : Vec3i) (info : FaceInfo), s.faceIndices[faceID]? = some f →
        s.faceInfos[faceID]? = some info → ∀ b : Bool,
        (info.side b = -1 ∧
          ∀ (t : Nat) (tt : Vec4i), indices[t]? = some tt → ¬ emitsFace vertices tt f b) ∨
        (∃ (t : Nat) (tt : Vec4i), indices[t]? = some tt ∧ emitsFace vertices tt f b ∧
          info.side b = t ∧
          ∀ (t' : Nat) (tt' : Vec4i), t < t' → indices[t']? = some tt' →
            ¬ emitsFace vertices tt' f b)) ∧
      (∀ (t : Nat) (tt : Vec4i) (g : Vec3i) (b : Bool), indices[t]? = some tt →
        emitsFace vertices tt g b →
        ∃ (faceID : Nat) (info : FaceInfo),
          s.faceIndices[faceID]? = some g ∧ s.faceInfos[faceID]? = some info) := by
  have hb' := inBounds_or vertices indices hb
  obtain ⟨s, hs, ht, hside⟩ := slot_side_cases sqrt vertices indices hb' indices.length
  have hs' : SharedFacesBuilder.SharedFacesBuilder sqrt vertices indices = .ok s := hs
  have hfaces : s.faceIndices =
      firstSightings ((allCalls vertices indices indices.length).map Call.face) := by
    rw [ht.faces]
    exact sightingsByKey_eq_firstSightings _ (allCalls_inBudget vertices indices hbud _)
  have hstored : ∀ (faceID : Nat) (f : Vec3i), s.faceIndices[faceID]? = some f → f.inBudget := by
    intro faceID f hf
    have hmem : f ∈ s.faceIndices := List.mem_iff_getElem?.mpr ⟨faceID, hf⟩
    rw [hfaces, mem_firstSightings] at hmem
    obtain ⟨c, hc, e⟩ := List.mem_map.mp hmem
    exact e ▸ allCalls_inBudget vertices indices hbud _ c hc
  have hmemb : ∀ (t : Nat) (tt : Vec4i), indices[t]? = some tt → tt.inBudget :=
    fun t tt h => hbud tt (List.mem_iff_getElem?.mpr ⟨t, h⟩)
  refine ⟨s, hs', ?_, ht.len_eq, ?_, ?_⟩
  · rw [hfaces]; exact nodup_firstSightings _
  · intro faceID f info hf hi b
    have hfb := hstored faceID f hf
    rcases hside faceID f info hf hi b with ⟨h1, h2⟩ | ⟨t, tt, hlt, htt, hem, hval, hlater⟩
    · left
      refine ⟨h1, fun t tt htt hem => ?_⟩
      exact h2 t tt (lt_length_of_getElem? htt) htt
        ((emitsTo_iff_emitsFace vertices tt (hmemb t tt htt) f hfb b).mpr hem)
    · right
      refine ⟨t, tt, htt, (emitsTo_iff_emitsFace vertices tt (hmemb t tt htt) f hfb b).mp hem,
        hval, fun t' tt' h1 h2 hem' => ?_⟩
      exact hlater t' tt' h1 (lt_length_of_getElem? h2) h2
        ((emitsTo_iff_emitsFace vertices tt' (hmemb t' tt' h2) f hfb b).mpr hem')
  · intro t tt g b htt hem
    obtain ⟨face, hface, hcan⟩ := hem
    have hcall := mem_allCalls vertices indices indices.length t tt face
      (lt_length_of_getElem? htt) htt hface
    have hmem : g ∈ s.faceIndices := by
      rw [hfaces, mem_firstSightings]
      exact List.mem_map.mpr ⟨_, hcall, by simp [Call.face, hcan]⟩
    obtain ⟨faceID, hf⟩ := List.mem_iff_getElem?.mp hmem
    have hlt : faceID < s.faceInfos.length := by
      rw [ht.len_eq]; exact lt_length_of_getElem? hf
    exact ⟨faceID, _, hf, List.getElem?_eq_getElem hlt⟩

end FinalSlots

/-! ## Four faces per tetrahedron -/

section FourFaces

variable {α : Type} [LinearOrderedCommRing α]

end FourFaces

/-! ## Adjacency of shared and boundary faces -/

theorem faceInfo_eq_of_sides (info : FaceInfo) (a b : Int) (h1 : info.side true = a)
    (h2 : info.side false = b) : info = ⟨a, b⟩ := by
  obtain ⟨f, k⟩ := info
  simp only [FaceInfo.side, if_true, Bool.false_eq_true, if_false] at h1 h2
  rw [h1, h2]

section Adjacency

variable {α : Type} [LinearOrderedCommRing α]

/-- A non-degenerate tetrahedron is assigned to exactly one side of each of its triangles: the
front when its fourth vertex is on the positive side of the triangle, the back when it is on the
negative side; and it is assigned to no other face. -/
theorem emitsFace_side (vertices : List (Vec3 α)) (index : Vec4i)
    (hb : index.inBounds vertices.length) (hnd : NonDegenerate vertices index) (f : Vec3i) :
    (∀ b, emitsFace vertices index f b →
      index.hasTriangle f ∧
      (b = true → 0 < planeSide vertices f (fourthVertex index f)) ∧
      (b = false → planeSide vertices f (fourthVertex index f) < 0)) ∧
    (f.x < f.y → f.y < f.z → index.hasTriangle f → ∃ b, emitsFace vertices index f b) := by
  constructor
  · rintro b ⟨face, hf, hc⟩
    have h := emitted_side vertices index hb hnd face hf
    rw [hc] at h
    exact h
  · intro h1 h2 ht
    obtain ⟨face, hf, hc⟩ := emits_triangle vertices index hb hnd f ⟨h1, h2⟩ ht
    exact ⟨(canonicalize face).2, face, hf, Prod.ext hc rfl⟩

theorem emitsFace_flag_unique (vertices : List (Vec3 α)) (index : Vec4i)
    (hb : index.inBounds vertices.length) (hnd : NonDegenerate vertices index) (f : Vec3i)
    (b b' : Bool) (h : emitsFace vertices index f b) (h' : emitsFace vertices index f b') :
    b = b' := by
  have e := (emitsFace_side vertices index hb hnd f).1 b h
  have e' := (emitsFace_side vertices index hb hnd f).1 b' h'
  cases b <;> cases b'
  · rfl
  · exact absurd (lt_trans (e'.2.1 rfl) (e.2.2 rfl)) (lt_irrefl _)
  · exact absurd (lt_trans (e.2.1 rfl) (e'.2.2 rfl)) (lt_irrefl _)
  · rfl

/-- C2. Exact arithmetic, in-bounds indices in `[0, 2^20)`, every tetrahedron non-degenerate,
each triangle in at most two tetrahedra, and two tetrahedra sharing a triangle with fourth
vertices strictly on opposite sides of it. Then the constructor returns a builder whose face list
has no duplicate, in which every triangle shared by tetrahedra `i ≠ j` has a slot with adjacency
`{front, back} = {i, j}`, and every triangle of exactly one tetrahedron `k` has a slot with one
entry `k` and the other `-1`. -/
theorem shared_face_adjacency (sqrt : α → α) (vertices : List (Vec3 α)) (indices : List Vec4i)
    (hb : InBounds vertices indices) (hbud : ∀ index ∈ indices, index.inBudget)
    (hnd : ∀ index ∈ indices, NonDegenerate vertices index)
    (htwo : ∀ (f : Vec3i) (i j k : Nat) (ti tj tk : Vec4i), f.x < f.y → f.y < f.z →
      indices[i]? = some ti → indices[j]? = some tj → indices[k]? = some tk →
      i ≠ j → i ≠ k → j ≠ k →
      ¬ (ti.hasTriangle f ∧ tj.hasTriangle f ∧ tk.hasTriangle f))
    (hopp : ∀ (f : Vec3i) (i j : Nat) (ti tj : Vec4i), f.x < f.y → f.y < f.z →
      indices[i]? = some ti → indices[j]? = some tj → i ≠ j →
      ti.hasTriangle f → tj.hasTriangle f →
      planeSide vertices f (fourthVertex ti f) * planeSide vertices f (fourthVertex tj f) < 0) :
    ∃ s, SharedFacesBuilder.SharedFacesBuilder sqrt vertices indices = .ok s ∧
      s.faceIndices.Nodup ∧
      (∀ (f : Vec3i) (i j : Nat) (ti tj : Vec4i), f.x < f.y → f.y < f.z →
        indices[i]? = some ti → indices[j]? = some tj → i ≠ j →
        ti.hasTriangle f → tj.hasTriangle f →
        ∃ faceID : Nat, s.faceIndices[faceID]? = some f ∧
          (s.faceInfos[faceID]? = some ⟨i, j⟩ ∨ s.faceInfos[faceID]? = some ⟨j, i⟩)) ∧
      (∀ (f : Vec3i) (k : Nat) (tk : Vec4i), f.x < f.y → f.y < f.z →
        indices[k]? = some tk → tk.hasTriangle f →
        (∀ (j : Nat) (tj : Vec4i), j ≠ k → indices[j]? = some tj → ¬ tj.hasTriangle f) →
        ∃ faceID : Nat, s.faceIndices[faceID]? = some f ∧
          (s.faceInfos[faceID]? = some ⟨k, -1⟩ ∨ s.faceInfos[faceID]? = some ⟨-1, k⟩)) := by
  obtain ⟨s, hs, hnodup, _, hside, hslot⟩ := final_slots sqrt vertices indices hb hbud
  have hbi : ∀ (t : Nat) (tt : Vec4i), indices[t]? = some tt → tt.inBounds vertices.length :=
    fun t tt h => hb tt (List.mem_iff_getElem?.mpr ⟨t, h⟩)
  have hndi : ∀ (t : Nat) (tt : Vec4i), indices[t]? = some tt → NonDegenerate vertices tt :=
    fun t tt h => hnd tt (List.mem_iff_getElem?.mpr ⟨t, h⟩)
  have htri : ∀ (t : Nat) (tt : Vec4i) (f : Vec3i) (b : Bool), indices[t]? = some tt →
      emitsFace vertices tt f b → tt.hasTriangle f :=
    fun t tt f b h hem => ((emitsFace_side vertices tt (hbi t tt h) (hndi t tt h) f).1 b hem).1
  refine ⟨s, hs, hnodup, ?_, ?_⟩
  · intro f i j ti tj h1 h2 hi hj hij hti htj
    obtain ⟨bi, hemi⟩ := (emitsFace_side vertices ti (hbi i ti hi) (hndi i ti hi) f).2 h1 h2 hti
    obtain ⟨bj, hemj⟩ := (emitsFace_side vertices tj (hbi j tj hj) (hndi j tj hj) f).2 h1 h2 htj
    have si := (emitsFace_side vertices ti (hbi i ti hi) (hndi i ti hi) f).1 bi hemi
    have sj := (emitsFace_side vertices tj (hbi j tj hj) (hndi j tj hj) f).1 bj hemj
    have hprod := hopp f i j ti tj h1 h2 hi hj hij hti htj
    have hbne : bi ≠ bj := by
      intro e
      subst e
      cases bi with
      | true => exact absurd hprod (not_lt.mpr (le_of_lt (mul_pos (si.2.1 rfl) (sj.2.1 rfl))))
      | false =>
        exact absurd hprod (not_lt.mpr (le_of_lt (mul_pos_of_neg_of_neg (si.2.2 rfl)
          (sj.2.2 rfl))))
    obtain ⟨faceID, info, hf, hinfo⟩ := hslot i ti f bi hi hemi
    have only : ∀ (t : Nat) (tt : Vec4i) (b : Bool), indices[t]? = some tt →
        emitsFace vertices tt f b → (t = i ∧ b = bi) ∨ (t = j ∧ b = bj) := by
      intro t tt b ht hem
      have htt := htri t tt f b ht hem
      by_cases e1 : t = i
      · subst e1
        rw [hi] at ht; cases ht
        exact Or.inl ⟨rfl, emitsFace_flag_unique vertices _ (hbi _ _ hi) (hndi _ _ hi) f _ _
          hem hemi⟩
      · by_cases e2 : t = j
        · subst e2
          rw [hj] at ht; cases ht
          exact Or.inr ⟨rfl, emitsFace_flag_unique vertices _ (hbi _ _ hj) (hndi _ _ hj) f _ _
            hem hemj⟩
        · exact absurd ⟨hti, htj, htt⟩
            (htwo f i j t ti tj tt h1 h2 hi hj ht hij (Ne.symm e1) (Ne.symm e2))
    have hvi : info.side bi = (i : Int) := by
      rcases hside faceID f info hf hinfo bi with ⟨_, hnone⟩ | ⟨t, tt, ht, hem, hv, _⟩
      · exact absurd hemi (hnone i ti hi)
      · rcases only t tt bi ht hem with ⟨e, _⟩ | ⟨_, e⟩
        · rw [hv, e]
        · exact absurd e hbne
    have hvj : info.side bj = (j : Int) := by
      rcases hside faceID f info hf hinfo bj with ⟨_, hnone⟩ | ⟨t, tt, ht, hem, hv, _⟩
      · exact absurd hemj (hnone j tj hj)
      · rcases only t tt bj ht hem with ⟨_, e⟩ | ⟨e, _⟩
        · exact absurd e.symm hbne
        · rw [hv, e]
    refine ⟨faceID, hf, ?_⟩
    cases bi <;> cases bj
    · exact absurd rfl hbne
    · exact Or.inr (by rw [hinfo, faceInfo_eq_of_sides info _ _ hvj hvi])
    · exact Or.inl (by rw [hinfo, faceInfo_eq_of_sides info _ _ hvi hvj])
    · exact absurd rfl hbne
  · intro f k tk h1 h2 hk htk honly
    obtain ⟨bk, hemk⟩ := (emitsFace_side vertices tk (hbi k tk hk) (hndi k tk hk) f).2 h1 h2 htk
    obtain ⟨faceID, info, hf, hinfo⟩ := hslot k tk f bk hk hemk
    have only : ∀ (t : Nat) (tt : Vec4i) (b : Bool), indices[t]? = some tt →
        emitsFace vertices tt f b → t = k ∧ b = bk := by
      intro t tt b ht hem
      have htt := htri t tt f b ht hem
      by_cases e1 : t = k
      · subst e1
        rw [hk] at ht; cases ht
        exact ⟨rfl, emitsFace_flag_unique vertices _ (hbi _ _ hk) (hndi _ _ hk) f _ _ hem hemk⟩
      · exact absurd htt (honly t tt e1 ht)
    have hvk : info.side bk = (k : Int) := by
      rcases hside faceID f info hf hinfo bk with ⟨_, hnone⟩ | ⟨t, tt, ht, hem, hv, _⟩
      · exact absurd hemk (hnone k tk hk)
      · rw [hv, (only t tt bk ht hem).1]
    have hvo : info.side (!bk) = -1 := by
      rcases hside faceID f info hf hinfo (!bk) with ⟨h, _⟩ | ⟨t, tt, ht, hem, _, _⟩
      · exact h
      · have := (only t tt (!bk) ht hem).2
        cases bk <;> cases this
    refine ⟨faceID, hf, ?_⟩
    cases bk
    · exact Or.inr (by rw [hinfo, faceInfo_eq_of_sides info _ _ hvo hvk])
    · exact Or.inl (by rw [hinfo, faceInfo_eq_of_sides info _ _ hvk hvo])

end Adjacency

/-! ## Two further scenarios: a repeated tetrahedron and two neighbours -/

section Scenario2Facts

variable {α : Type} [LinearOrderedCommRing α]

theorem pair_inBounds : InBounds (pairVertices : List (Vec3 α)) pairIndices := by
  intro index h
  simp only [pairIndices, List.mem_cons, List.mem_singleton, List.not_mem_nil, or_false] at h
  rcases h with rfl | rfl <;> simp [Vec4i.inBounds, pairVertices]

theorem pair_inBudget : ∀ index ∈ pairIndices, index.inBudget := by
  intro index h
  simp only [pairIndices, List.mem_cons, List.mem_singleton, List.not_mem_nil, or_false] at h
  rcases h with rfl | rfl <;> decide

theorem pair_volume0 : tetVolume (pairVertices : List (Vec3 α)) ⟨0, 1, 2, 3⟩ = 1 := by
  simp [tetVolume, vertexOf, pairVertices, signedVolume, dot, cross, Vec3.sub]

theorem pair_volume1 : tetVolume (pairVertices : List (Vec3 α)) ⟨1, 2, 3, 4⟩ = 2 := by
  simp [tetVolume, vertexOf, pairVertices, signedVolume, dot, cross, Vec3.sub]
  norm_num

theorem pair_nonDegenerate :
    ∀ index ∈ pairIndices, NonDegenerate (pairVertices : List (Vec3 α)) index := by
  intro index h
  simp only [pairIndices, List.mem_cons, List.mem_singleton, List.not_mem_nil, or_false] at h
  rcases h with rfl | rfl
  · exact ⟨by decide, by rw [pair_volume0]; exact one_ne_zero⟩
  · exact ⟨by decide, by rw [pair_volume1]; exact two_ne_zero⟩

theorem pair_position (i : Nat) (ti : Vec4i) (h : pairIndices[i]? = some ti) :
    (i = 0 ∧ ti = ⟨0, 1, 2, 3⟩) ∨ (i = 1 ∧ ti = ⟨1, 2, 3, 4⟩) := by
  have hlt : i < 2 := lt_length_of_getElem? h
  rcases Nat.lt_succ_iff_lt_or_eq.mp hlt with h0 | h1
  · have : i = 0 := by omega
    subst this
    exact Or.inl ⟨rfl, (Option.some.inj h).symm⟩
  · subst h1
    exact Or.inr ⟨rfl, (Option.some.inj h).symm⟩

theorem pair_shared (f : Vec3i) (h1 : f.x < f.y) (h2 : f.y < f.z)
    (ha : (⟨0, 1, 2, 3⟩ : Vec4i).hasTriangle f) (hb : (⟨1, 2, 3, 4⟩ : Vec4i).hasTriangle f) :
    f = ⟨1, 2, 3⟩ := by
  obtain ⟨x, y, z⟩ := f
  simp only [Vec4i.hasTriangle, Vec4i.has] at ha hb
  simp only at h1 h2
  have : x = 1 ∧ y = 2 ∧ z = 3 := by omega
  simp [this]

theorem pair_sides :
    planeSide (pairVertices : List (Vec3 α)) ⟨1, 2, 3⟩ (fourthVertex ⟨0, 1, 2, 3⟩ ⟨1, 2, 3⟩) = -1 ∧
    planeSide (pairVertices : List (Vec3 α)) ⟨1, 2, 3⟩ (fourthVertex ⟨1, 2, 3, 4⟩ ⟨1, 2, 3⟩) = 2 := by
  have e0 : fourthVertex ⟨0, 1, 2, 3⟩ ⟨1, 2, 3⟩ = 0 := by decide
  have e1 : fourthVertex ⟨1, 2, 3, 4⟩ ⟨1, 2, 3⟩ = 4 := by decide
  rw [e0, e1]
  constructor
  · simp [planeSide, vertexOf, pairVertices, signedVolume, dot, cross, Vec3.sub]
  · simp [planeSide, vertexOf, pairVertices, signedVolume, dot, cross, Vec3.sub]
    norm_num

theorem pair_at_most_two (f : Vec3i) (i j k : Nat) (ti tj tk : Vec4i)
    (hi : pairIndices[i]? = some ti) (hj : pairIndices[j]? = some tj)
    (hk : pairIndices[k]? = some tk) (hij : i ≠ j) (hik : i ≠ k) (hjk : j ≠ k) :
    ¬ (ti.hasTriangle f ∧ tj.hasTriangle f ∧ tk.hasTriangle f) := by
  have h1 : i < 2 := lt_length_of_getElem? hi
  have h2 : j < 2 := lt_length_of_getElem? hj
  have h3 : k < 2 := lt_length_of_getElem? hk
  omega

theorem pair_opposite (f : Vec3i) (i j : Nat) (ti tj : Vec4i) (h1 : f.x < f.y)
    (h2 : f.y < f.z) (hi : pairIndices[i]? = some ti) (hj : pairIndices[j]? = some tj)
    (hij : i ≠ j) (hti : ti.hasTriangle f) (htj : tj.hasTriangle f) :
    planeSide (pairVertices : List (Vec3 α)) f (fourthVertex ti f) *
      planeSide (pairVertices : List (Vec3 α)) f (fourthVertex tj f) < 0 := by
  obtain ⟨s0, s1⟩ := @pair_sides α _
  rcases pair_position i ti hi with ⟨rfl, rfl⟩ | ⟨rfl, rfl⟩ <;>
    rcases pair_position j tj hj with ⟨rfl, rfl⟩ | ⟨rfl, rfl⟩
  · exact absurd rfl hij
  · have := pair_shared f h1 h2 hti htj
    subst this
    rw [s0, s1]; norm_num
  · have := pair_shared f h1 h2 htj hti
    subst this
    rw [s0, s1]; norm_num
  · exact absurd rfl hij

end Scenario2Facts

/-- C2 at two tetrahedra sharing the triangle `(1,2,3)`, over the reals: the slot of the shared
triangle holds both tetrahedra. -/
theorem shared_face_adjacency_witness :
    InBounds (pairVertices : List (Vec3 ℝ)) pairIndices ∧
    (∀ index ∈ pairIndices, index.inBudget) ∧
    (∀ index ∈ pairIndices, NonDegenerate (pairVertices : List (Vec3 ℝ)) index) ∧
    ∃ s, SharedFacesBuilder.SharedFacesBuilder Real.sqrt (pairVertices : List (Vec3 ℝ))
        pairIndices = .ok s ∧
      ∃ faceID : Nat, s.faceIndices[faceID]? = some ⟨1, 2, 3⟩ ∧
        (s.faceInfos[faceID]? = some ⟨0, 1⟩ ∨ s.faceInfos[faceID]? = some ⟨1, 0⟩) := by
  refine ⟨pair_inBounds, pair_inBudget, pair_nonDegenerate, ?_⟩
  obtain ⟨s, hs, _, hshared, _⟩ := shared_face_adjacency Real.sqrt
    (pairVertices : List (Vec3 ℝ)) pairIndices pair_inBounds pair_inBudget pair_nonDegenerate
    (fun f i j k ti tj tk _ _ hi hj hk hij hik hjk =>
      pair_at_most_two f i j k ti tj tk hi hj hk hij hik hjk)
    (fun f i j ti tj h1 h2 hi hj hij hti htj =>
      pair_opposite f i j ti tj h1 h2 hi hj hij hti htj)
  obtain ⟨faceID, hf, hinfo⟩ := hshared ⟨1, 2, 3⟩ 0 1 ⟨0, 1, 2, 3⟩ ⟨1, 2, 3, 4⟩ (by decide)
    (by decide) rfl rfl (by decide) (by decide) (by decide)
  exact ⟨s, hs, faceID, hf, by simpa using hinfo⟩

end TetQueries
